import Mathlib

/-!
# Flow-history pipeline of `src/pages/PatientDetails.jsx`

A shallow embedding of the pure helpers of the patient page (`aggregateSamples`,
`movingAverage`) and of the state updaters that merge per-day snapshots into
`flowHistoryRaw`, followed by the properties proved about them.

Conventions of the embedding:

* an instant is the integer number of milliseconds since the epoch, that is
  `new Date(x).getTime()`; an ISO string produced by `toISOString` is represented
  by the instant it denotes;
* a JavaScript number that carries a measurement is a rational, so `+` and `/`
  are exact;
* `Math.floor (a / b)` on integers is `Int.fdiv a b`;
* `Array.prototype.sort` with a comparator is the stable sort, here insertion sort;
* the local-calendar getters of `Date` belong to the runtime and its time zone and
  are a parameter (`LocalCalendar`); `utcCalendar` is the instance for a browser
  whose time zone is UTC;
* the local time zone of the runtime is a parameter (`TimeZone`): the offset from UTC
  in force at an instant and the offset by which a local time value is read, as in
  `LocalTime(t)` and `UTC(t)` of the language; a zone of fixed offset `tz`
  (milliseconds) is the instance `fixedOffset tz`, and the definitions that take `tz`
  are the code in such a zone;
* the locale formatting of dates belongs to the runtime and is a parameter
  (`LocaleFormat`).
-/

namespace PatientDetails

/-! ## Data -/

/-- Element of `flowHistoryRaw`, the argument of `aggregateSamples`:
`{timestamp, flowRate}`. -/
structure Sample where
  timestamp : Int
  flowRate : ℚ
deriving DecidableEq, Repr

/-- Element of the local array `arr` of `aggregateSamples`: `{t, v}`. -/
structure TV where
  t : Int
  v : ℚ
deriving DecidableEq, Repr

/-- Element of the result of `aggregateSamples` and `movingAverage`:
`{timestamp, value}`. -/
structure Point where
  timestamp : Int
  value : ℚ
deriving DecidableEq, Repr

/-- The `mode` argument of `aggregateSamples`: the code tests `mode === "raw"` and
treats every other string as bucket mode. -/
inductive Mode where
  | raw
  | bucket
deriving DecidableEq, Repr

/-- Entry of the `buckets` object of `aggregateSamples`: `{sum, count, start}`. -/
structure Bucket where
  sum : ℚ
  count : Nat
  start : Int
deriving DecidableEq, Repr

/-! ## `aggregateSamples` -/

/-- The step `Math.floor(a / b)` on integers, for a divisor other than zero. -/
def floorDiv (a b : Int) : Int := Int.fdiv a b

/-- The conversion of a sample to an element of `arr`, with `t` the instant of its
timestamp and `v` equal to `Number(s.flowRate) || 0`, which on a finite number
`x` is `x`. -/
def toTV (s : Sample) : TV := { t := s.timestamp, v := s.flowRate }

/-- The statement `arr.sort((a, b) => a.t - b.t)`. -/
def sortByT (arr : List TV) : List TV :=
  arr.insertionSort (fun a b => a.t ≤ b.t)

/-- Body of `arr.forEach((p) => ...)` that accumulates `p` into its bucket. -/
def addToBucket (min bucketMs : Int) (buckets : Int → Option Bucket) (p : TV) :
    Int → Option Bucket :=
  let b := floorDiv (p.t - min) bucketMs
  let cur : Bucket :=
    match buckets b with
    | some x => x
    | none => { sum := 0, count := 0, start := min + b * bucketMs }
  Function.update buckets b (some { cur with sum := cur.sum + p.v, count := cur.count + 1 })

/-- The value pushed for bucket `b`: `b ? b.sum / b.count : 0`. -/
def bucketValue (b : Option Bucket) : ℚ :=
  match b with
  | some x => x.sum / x.count
  | none => 0

/-- The function `aggregateSamples(samples, mode, bucketMinutes)`. The empty list is
returned as it is; on a non-empty list `Math.min(...arr.map((x) => x.t))` and
`Math.max(...)` are the folds of `min` and `max` over the timestamps, the object
`buckets` is a partial function from the bucket index, and the final loop runs over
`i = 0, ..., nb - 1`. -/
def aggregateSamples (samples : List Sample) (mode : Mode) (bucketMinutes : Int) :
    List Point :=
  match samples with
  | [] => []
  | s :: rest =>
    let arr := (s :: rest).map toTV
    match mode with
    | .raw => (sortByT arr).map (fun x => { timestamp := x.t, value := x.v })
    | .bucket =>
      let bucketMs := bucketMinutes * 60 * 1000
      let min0 := (rest.map toTV).foldl (fun m x => min m x.t) (toTV s).t
      let max := (rest.map toTV).foldl (fun m x => max m x.t) (toTV s).t
      let min := floorDiv min0 bucketMs * bucketMs
      let buckets := arr.foldl (addToBucket min bucketMs) (fun _ => none)
      let nb := floorDiv (max - min) bucketMs + 1
      (List.range nb.toNat).map (fun (i : Nat) =>
        { timestamp := min + (i : Int) * bucketMs, value := bucketValue (buckets (i : Int)) })

/-- Hour and minute of 1 January 2024 (UTC) as an instant. -/
def at2024 (h m : Int) : Int := 1704067200000 + h * 3600000 + m * 60000

/-! ## `movingAverage` -/

/-- The inner loop of `movingAverage`,
`for (let j = start; j <= end; j++)` with body `sum += vals[j]; count++`, from
`sum = 0, count = 0`: its iterations are `j = start + k` for
`k = 0, ..., end - start`, none when `end < start`. Returns `(sum, count)`. The ranges
that `movingAverage` passes lie inside the array, so the default of `getD` is not used. -/
def windowLoop (vals : List ℚ) (start endIdx : Int) : ℚ × Nat :=
  (List.range (endIdx + 1 - start).toNat).foldl
    (fun (acc : ℚ × Nat) (k : Nat) => (acc.1 + vals.getD (start + (k : Int)).toNat 0, acc.2 + 1))
    (0, 0)

/-- The function `movingAverage(data, windowSize)`; the value of a point is
`count ? sum / count : 0`. -/
def movingAverage (data : List Point) (windowSize : Int) : List Point :=
  let vals := data.map (fun d => d.value)
  data.mapIdx (fun (i : Nat) (d : Point) =>
    let start := max 0 ((i : Int) - floorDiv windowSize 2)
    let endIdx := min ((data.length : Int) - 1) ((i : Int) + floorDiv windowSize 2)
    let r := windowLoop vals start endIdx
    { timestamp := d.timestamp, value := if r.2 ≠ 0 then r.1 / (r.2 : ℚ) else 0 })

/-! ## Calendar days -/

/-- The helper `pad`: `n < 10 ? "0" + n : "" + n`. -/
def pad (n : Nat) : String := if n < 10 then "0" ++ toString n else "" ++ toString n

/-- The local-calendar getters of `Date` that the page uses, as functions of the
instant: `getFullYear`, `getMonth` (0 to 11) and `getDate` (1 to 31). They are
provided by the runtime and depend on its time zone. -/
structure LocalCalendar where
  getFullYear : Int → Int
  getMonth : Int → Nat
  getDate : Int → Nat

/-- The record with fields `year`, `month`, `day` returned by `dateToYMDParts`: the year is a
number, the month and the day are padded strings. -/
structure YMDParts where
  year : Int
  month : String
  day : String
deriving DecidableEq, Repr

/-- The function `dateToYMDParts(d)`. -/
def dateToYMDParts (cal : LocalCalendar) (d : Int) : YMDParts :=
  { year := cal.getFullYear d, month := pad (cal.getMonth d + 1), day := pad (cal.getDate d) }

/-- Year, month (1 to 12) and day of month of the day that is `z` days after
1 January 1970 in the proleptic Gregorian calendar. -/
def civilFromDays (z : Int) : Int × Nat × Nat :=
  let z := z + 719468
  let era := z / 146097
  let doe := z - era * 146097
  let yoe := (doe - doe / 1460 + doe / 36524 - doe / 146096) / 365
  let doy := doe - (365 * yoe + yoe / 4 - yoe / 100)
  let mp := (5 * doy + 2) / 153
  let d := doy - (153 * mp + 2) / 5 + 1
  let m := if mp < 10 then mp + 3 else mp - 9
  (if m ≤ 2 then yoe + era * 400 + 1 else yoe + era * 400, m.toNat, d.toNat)

/-- The calendar getters of a runtime whose local time zone is UTC. -/
def utcCalendar : LocalCalendar :=
  { getFullYear := fun t => (civilFromDays (t / 86400000)).1
    getMonth := fun t => (civilFromDays (t / 86400000)).2.1 - 1
    getDate := fun t => (civilFromDays (t / 86400000)).2.2 }

/-! ## Merging the per-day snapshots into `flowHistoryRaw` -/

/-- The predicate of `prev.filter((p) => ...)` in both updaters of the day callback
for the day `key`: with `dt = new Date(p.timestamp)`, the negation of
`dt.getFullYear() === Number(year) && pad(dt.getMonth() + 1) === month &&
pad(dt.getDate()) === day`. -/
def notOnDay (cal : LocalCalendar) (key : YMDParts) (p : Sample) : Bool :=
  !(decide (cal.getFullYear p.timestamp = key.year) &&
    decide (pad (cal.getMonth p.timestamp + 1) = key.month) &&
    decide (pad (cal.getDate p.timestamp) = key.day))

/-- The statement `merged.sort((a, b) => new Date(a.timestamp) - new Date(b.timestamp))`. -/
def sortByTimestamp (merged : List Sample) : List Sample :=
  merged.insertionSort (fun a b => a.timestamp ≤ b.timestamp)

/-- The updater passed to `setFlowHistoryRaw` when the snapshot of the day is missing
(day cleared): remove the samples of this day from the state. -/
def clearDay (cal : LocalCalendar) (key : YMDParts) (prev : List Sample) : List Sample :=
  prev.filter (notOnDay cal key)

/-- The updater passed to `setFlowHistoryRaw` when the snapshot of the day holds
`samples`: filter out the old samples of this day, append the new ones, sort. -/
def replaceDay (cal : LocalCalendar) (key : YMDParts) (samples : List Sample)
    (prev : List Sample) : List Sample :=
  let filtered := prev.filter (notOnDay cal key)
  let merged := filtered ++
    samples.map (fun s => ({ timestamp := s.timestamp, flowRate := s.flowRate } : Sample))
  sortByTimestamp merged

/-- One state update issued by the callback of the day `key`: the clear update, or
the replace update with the samples gathered from the snapshot. -/
inductive DayUpdate where
  | clear (key : YMDParts)
  | replace (key : YMDParts) (samples : List Sample)
deriving DecidableEq, Repr

/-- The effect of one update on `flowHistoryRaw`. -/
def applyUpdate (cal : LocalCalendar) (prev : List Sample) (u : DayUpdate) : List Sample :=
  match u with
  | .clear key => clearDay cal key prev
  | .replace key samples => replaceDay cal key samples prev

/-- The state after a sequence of updates, applied in arrival order. -/
def applyUpdates (cal : LocalCalendar) (prev : List Sample) (us : List DayUpdate) : List Sample :=
  us.foldl (applyUpdate cal) prev

/-! ## Specification side: the series store as a map from partition key to snapshot -/

/-- The state of the SeriesStore of the specification, a mapping from partition key
to the most recent snapshot of that key, kept as an association list with one entry
per tracked key. -/
abbrev SeriesStore := List (YMDParts × List Sample)

/-- The operation `applyPartition(key, samples)` of the specification: replaces the
stored snapshot for `key` with `samples`. -/
def applyPartition (key : YMDParts) (samples : List Sample) (store : SeriesStore) : SeriesStore :=
  store.filter (fun e => !decide (e.1 = key)) ++ [(key, samples)]

/-- The operation `clearPartition(key)` of the specification, equivalent to
`applyPartition(key, [])`. -/
def clearPartition (key : YMDParts) (store : SeriesStore) : SeriesStore :=
  applyPartition key [] store

/-- The operation `snapshotSeries()` of the specification: the concatenation of all
tracked snapshots, sorted ascending by timestamp (stable). -/
def snapshotSeries (store : SeriesStore) : List Sample :=
  sortByTimestamp (store.map (fun e => e.2)).flatten

/-- The store after one update. -/
def storeUpdate (store : SeriesStore) (u : DayUpdate) : SeriesStore :=
  match u with
  | .clear key => clearPartition key store
  | .replace key samples => applyPartition key samples store

/-- The store after a sequence of updates, applied in arrival order. -/
def storeUpdates (store : SeriesStore) (us : List DayUpdate) : SeriesStore :=
  us.foldl storeUpdate store

/-- The batch of a replace update holds only samples whose timestamp falls on the
local calendar day of the key it is delivered for (a clear update has no batch). -/
def batchOnOwnDay (cal : LocalCalendar) (u : DayUpdate) : Bool :=
  match u with
  | .clear _ => true
  | .replace key samples => samples.all (fun p => decide (dateToYMDParts cal p.timestamp = key))

/-- Every snapshot of the store holds only samples of the day of its key. -/
def StoreOnOwnDay (cal : LocalCalendar) (store : SeriesStore) : Prop :=
  ∀ e ∈ store, ∀ p ∈ e.2, dateToYMDParts cal p.timestamp = e.1

/-- The relation between the series of the page and the store of the specification
that every update preserves: the series is in timestamp order and holds, for every
timestamp, the samples of the snapshots with that timestamp in store order; every
snapshot holds samples of its own day only; every key has one entry. -/
def Refines (cal : LocalCalendar) (series : List Sample) (store : SeriesStore) : Prop :=
  series.Sorted (fun a b => a.timestamp ≤ b.timestamp) ∧
  StoreOnOwnDay cal store ∧
  (store.map (fun e => e.1)).Nodup ∧
  ∀ t : Int, series.filter (fun p => decide (p.timestamp = t)) =
    (store.map (fun e => e.2)).flatten.filter (fun p => decide (p.timestamp = t))

/-- The day key of 14 November 2023. -/
def nov14 : YMDParts := { year := 2023, month := "11", day := "14" }

/-- The day key of 15 November 2023. -/
def nov15 : YMDParts := { year := 2023, month := "11", day := "15" }

/-- Hour and minute of 14 November 2023 (UTC) as an instant. -/
def atNov14 (h m : Int) : Int := 1699920000000 + h * 3600000 + m * 60000

/-- Hour and minute of 15 November 2023 (UTC) as an instant. -/
def atNov15 (h m : Int) : Int := 1700006400000 + h * 3600000 + m * 60000

/-! ## `iterateDays`

A `Date` holds an instant. Its local getters and setters go through the time zone of
the runtime: `LocalTime(t) = t + offset in force at t`, and a local time value `l` is
turned into the instant `UTC(l) = l - offset by which l is read`; a local time that a
change of offset skips or repeats is read with the offset before the change. -/

/-- Milliseconds per day. -/
def msPerDay : Int := 86400000

/-- The local time zone of the runtime: `offsetAt t` is the offset from UTC in force
at the instant `t`, `offsetAtLocal l` the offset by which the local time value `l` is
read, both in milliseconds. The two never differ by a day or more. -/
structure TimeZone where
  offsetAt : Int → Int
  offsetAtLocal : Int → Int
  offset_spread : ∀ t l : Int, offsetAtLocal l - offsetAt t < 86400000

/-- The local time value of the instant `t` in a zone: `LocalTime(t)`. -/
def zoneLocalTime (zone : TimeZone) (t : Int) : Int := t + zone.offsetAt t

/-- The instant of the local time value `l` in a zone: `UTC(l)`. -/
def zoneUtc (zone : TimeZone) (l : Int) : Int := l - zone.offsetAtLocal l

/-- The statement `d.setHours(0, 0, 0, 0)`: the instant of 00:00 local time on the
local day of `t`. -/
def setHoursZeroIn (zone : TimeZone) (t : Int) : Int :=
  zoneUtc zone (floorDiv (zoneLocalTime zone t) msPerDay * msPerDay)

/-- The statement `cur.setDate(cur.getDate() + 1)`: the instant of the same local
time of day on the next calendar day. -/
def setDateNextIn (zone : TimeZone) (t : Int) : Int :=
  zoneUtc zone (zoneLocalTime zone t + msPerDay)

/-- The loop `while (cur <= end)` of `iterateDays` with body
`days.push(new Date(cur)); cur.setDate(cur.getDate() + 1)`; returns the days pushed. -/
def iterateDaysLoopIn (zone : TimeZone) (endT cur : Int) : List Int :=
  if cur ≤ endT then cur :: iterateDaysLoopIn zone endT (setDateNextIn zone cur) else []
termination_by (endT - cur + 1).toNat
decreasing_by
  have h := zone.offset_spread cur (cur + zone.offsetAt cur + 86400000)
  simp only [setDateNextIn, zoneUtc, zoneLocalTime, msPerDay]
  omega

/-- The function `iterateDays(startDate, endDate)` in the time zone `zone`. -/
def iterateDaysIn (zone : TimeZone) (startDate endDate : Int) : List Int :=
  let cur := setHoursZeroIn zone startDate
  let endT := setHoursZeroIn zone endDate
  iterateDaysLoopIn zone endT cur

/-- The time zone whose offset from UTC is always `tz`. -/
def fixedOffset (tz : Int) : TimeZone :=
  { offsetAt := fun _ => tz
    offsetAtLocal := fun _ => tz
    offset_spread := fun _ _ => by
      show tz - tz < 86400000
      omega }

/-- A time zone with one change of offset, at the instant `transition`, from
`offsetBefore` to `offsetAfter`, which differ by less than a day. A local time value is
read with the offset before the change as long as it is earlier than the later of the
two local times of the change, which covers the local times that the change skips or
repeats. -/
def transitionZone (transition offsetBefore offsetAfter : Int)
    (hspread : offsetBefore - offsetAfter < 86400000 ∧ offsetAfter - offsetBefore < 86400000) :
    TimeZone :=
  { offsetAt := fun t => if t < transition then offsetBefore else offsetAfter
    offsetAtLocal := fun l =>
      if l < transition + max offsetBefore offsetAfter then offsetBefore else offsetAfter
    offset_spread := fun t l => by
      show (if l < transition + max offsetBefore offsetAfter then offsetBefore
          else offsetAfter) -
        (if t < transition then offsetBefore else offsetAfter) < 86400000
      split <;> split <;> omega }

/-- The time zone of Havana around the start of daylight saving time in 2023: the
offset is five hours behind UTC until 12 March 2023 05:00 UTC, which is 00:00 local
time, and four hours behind from then on, so the local times from 00:00 to 01:00 of
12 March are skipped. -/
def havana2023 : TimeZone :=
  transitionZone 1678597200000 (-18000000) (-14400000) (by decide)

/-- Hour and minute of a day of March 2023 (UTC) as an instant. -/
def atMarch2023 (day h m : Int) : Int :=
  1677628800000 + (day - 1) * 86400000 + h * 3600000 + m * 60000

/-! ### The code in a time zone of fixed offset `tz`

In such a zone `LocalTime(t) = t + tz` and `UTC(l) = l - tz`. -/

/-- The local time value of the instant `t` in a zone of fixed offset. -/
def localTime (tz t : Int) : Int := t + tz

/-- The instant of the local time value `l` in a zone of fixed offset. -/
def utcTime (tz l : Int) : Int := l - tz

/-- The number of the local calendar day of the instant `t`, counted from
1 January 1970, in a zone of fixed offset. -/
def localDay (tz t : Int) : Int := floorDiv (localTime tz t) msPerDay

/-- The value of `setHoursZeroIn` in a zone of fixed offset: the local midnight of the
day of `t`. -/
def setHoursZero (tz t : Int) : Int := utcTime tz (localDay tz t * msPerDay)

/-- The value of `setDateNextIn` in a zone of fixed offset: one day later. -/
def setDateNext (tz t : Int) : Int := utcTime tz (localTime tz t + msPerDay)

/-- The loop of `iterateDays` in a zone of fixed offset. -/
def iterateDaysLoop (tz endT cur : Int) : List Int :=
  iterateDaysLoopIn (fixedOffset tz) endT cur

/-- The function `iterateDays(startDate, endDate)` in a zone of fixed offset. -/
def iterateDays (tz startDate endDate : Int) : List Int :=
  iterateDaysIn (fixedOffset tz) startDate endDate

/-- The calendar getters of a runtime whose local time zone has offset `tz`. -/
def offsetCalendar (tz : Int) : LocalCalendar :=
  { getFullYear := fun t => (civilFromDays (localDay tz t)).1
    getMonth := fun t => (civilFromDays (localDay tz t)).2.1 - 1
    getDate := fun t => (civilFromDays (localDay tz t)).2.2 }

/-! ## The history subscription effect -/

/-- One run of the history effect: its variable `isMounted` and the day keys of the
listeners it attached (one `onValue` per element of `dayList`). -/
structure EffectInstance where
  isMounted : Bool
  keys : List YMDParts
deriving DecidableEq, Repr

/-- The part of the page state that the history effect and its callbacks touch: the
state `flowHistoryRaw` and the effect runs so far, oldest first. -/
structure PageState where
  flowHistoryRaw : List Sample
  effects : List EffectInstance
deriving DecidableEq, Repr

/-- The page before the first run of the effect: `useState([])`. -/
def initialState : PageState := { flowHistoryRaw := [], effects := [] }

/-- The list `dayList` of the effect for the state strings `startDate` and `endDate`,
each given by the number of the calendar day it names:
`iterateDays(new Date(startDate + "T00:00:00"), new Date(endDate + "T23:59:59"))`. -/
def effectDayList (tz startDate endDate : Int) : List Int :=
  let start := utcTime tz (startDate * msPerDay)
  let endT := utcTime tz (endDate * msPerDay + 86399000)
  iterateDays tz start endT

/-- The body of the history effect: compute `dayList`, `setFlowHistoryRaw([])`, attach
one listener per day, with `isMounted = true`. -/
def historyEffect (cal : LocalCalendar) (tz startDate endDate : Int) (st : PageState) :
    PageState :=
  let dayList := effectDayList tz startDate endDate
  { flowHistoryRaw := []
    effects := st.effects ++
      [{ isMounted := true, keys := dayList.map (dateToYMDParts cal) }] }

/-- The cleanup function returned by the effect run `id`: `isMounted = false` (and the
listeners are detached). -/
def effectCleanup (id : Nat) (st : PageState) : PageState :=
  { st with
    effects := st.effects.mapIdx (fun (i : Nat) (e : EffectInstance) =>
      if i = id then { e with isMounted := false } else e) }

/-- The day key of an update. -/
def DayUpdate.key (u : DayUpdate) : YMDParts :=
  match u with
  | .clear key => key
  | .replace key _ => key

/-- The `onValue` callback that the effect run `id` attached for the day of `u`,
invoked with a snapshot that leads to the update `u`: `if (!isMounted) return;`, then
the clear or the replace updater. A run that does not exist, or that has no listener for
this day, has no such callback, and the state is left as it is. -/
def dayCallback (cal : LocalCalendar) (id : Nat) (u : DayUpdate) (st : PageState) : PageState :=
  match st.effects[id]? with
  | none => st
  | some e =>
    if !e.isMounted then st
    else if u.key ∈ e.keys then { st with flowHistoryRaw := applyUpdate cal st.flowHistoryRaw u }
    else st

/-- What can happen to the page: the effect runs for the first time or again because
`startDate` or `endDate` changed (the runtime first runs the cleanup of the previous
run); the page is unmounted (the runtime runs the cleanup of the last run); a callback
of some effect run is invoked. -/
inductive PageEvent where
  | rangeChange (startDate endDate : Int)
  | unmount
  | snapshot (id : Nat) (u : DayUpdate)
deriving DecidableEq, Repr

/-- The cleanup of the most recent effect run, if there is one. -/
def cleanupLast (st : PageState) : PageState := effectCleanup (st.effects.length - 1) st

/-- The effect of one event on the page. -/
def pageStep (cal : LocalCalendar) (tz : Int) (st : PageState) (ev : PageEvent) : PageState :=
  match ev with
  | .rangeChange startDate endDate => historyEffect cal tz startDate endDate (cleanupLast st)
  | .unmount => cleanupLast st
  | .snapshot id u => dayCallback cal id u st

/-- The page after a sequence of events. -/
def pageRun (cal : LocalCalendar) (tz : Int) (st : PageState) (evs : List PageEvent) : PageState :=
  evs.foldl (pageStep cal tz) st

/-- The first `n` effect runs exist and have `isMounted = false`. -/
def Cancelled (n : Nat) (st : PageState) : Prop :=
  ∀ i, i < n → ∃ e, st.effects[i]? = some e ∧ e.isMounted = false

/-- Every effect run except the most recent one has `isMounted = false`. -/
def OnlyLastMounted (st : PageState) : Prop :=
  ∀ i, i + 1 < st.effects.length → ∃ e, st.effects[i]? = some e ∧ e.isMounted = false

/-! ## The derived chart data (`aggregated`) -/

/-- The argument `samples` of `aggregateSamples` when it may be missing (`null` or
`undefined`): `if (!samples || samples.length === 0) return [];`. -/
def aggregateSamplesOpt (samples : Option (List Sample)) (mode : Mode) (bucketMinutes : Int) :
    List Point :=
  match samples with
  | none => []
  | some l => aggregateSamples l mode bucketMinutes

/-- The state `maWindow`: the number it is initialised with (`useState(3)`), or the
string that the Window field reports (`setMaWindow(e.target.value)`), which for a number
field is the empty string (`none`) when the field holds no number and the numeral
otherwise. Only whole numbers are represented. -/
inductive MaWindow where
  | number (n : Int)
  | text (value : Option Int)
deriving DecidableEq, Repr

/-- The expression `Number(maWindow || 3)`: the number `0` and the empty string are
falsy and give `3`; every other string is truthy, the numeral `"0"` included. -/
def windowNumber (maWindow : MaWindow) : Int :=
  match maWindow with
  | .number n => if n = 0 then 3 else n
  | .text none => 3
  | .text (some n) => n

/-- The smoothing step
`const final = movingAvg ? movingAverage(agg, Number(maWindow || 3)) : agg`. -/
def smoothingStep (movingAvg : Bool) (maWindow : MaWindow) (agg : List Point) : List Point :=
  if movingAvg then movingAverage agg (windowNumber maWindow) else agg

/-- The choice of `mode` and `bucketMinutes` from the state `aggregationMode`. -/
def bucketSetting (aggregationMode : String) : Mode × Int :=
  if aggregationMode = "raw" then (Mode.raw, 1)
  else if aggregationMode = "min15" then (Mode.bucket, 15)
  else if aggregationMode = "hourly" then (Mode.bucket, 60)
  else if aggregationMode = "daily" then (Mode.bucket, 60 * 24)
  else (Mode.raw, 1)

/-- The locale formatting of an instant by the runtime: `toLocaleDateString()`,
`toLocaleString([], ...)` with a two-digit 24-hour `hour` only, `toLocaleString()` and
`toLocaleTimeString()`. -/
structure LocaleFormat where
  toLocaleDateString : Int → String
  toLocaleHourString : Int → String
  toLocaleString : Int → String
  toLocaleTimeString : Int → String

/-- The label of a point: the callback of `final.map((d) => ...)` that builds `labels`,
applied to `dt = new Date(d.timestamp)`. -/
def chartLabel (fmt : LocaleFormat) (aggregationMode : String) (dt : Int) : String :=
  if aggregationMode = "daily" then fmt.toLocaleDateString dt
  else if aggregationMode = "hourly" then
    fmt.toLocaleHourString dt ++ " : " ++ fmt.toLocaleDateString dt
  else if aggregationMode = "min15" then fmt.toLocaleString dt
  else fmt.toLocaleTimeString dt

/-- The value of the memo `aggregated`: `labels`, `dataPoints` and `points`. -/
structure Aggregated where
  labels : List String
  dataPoints : List ℚ
  points : List Point
deriving DecidableEq, Repr

/-- The function of `useMemo` that computes `aggregated` from `flowHistoryRaw`,
`aggregationMode`, `movingAvg` and `maWindow`. -/
def aggregated (fmt : LocaleFormat) (flowHistoryRaw : List Sample) (aggregationMode : String)
    (movingAvg : Bool) (maWindow : MaWindow) : Aggregated :=
  let mode := (bucketSetting aggregationMode).1
  let bucketMinutes := (bucketSetting aggregationMode).2
  let agg := aggregateSamples flowHistoryRaw (if mode = Mode.raw then Mode.raw else Mode.bucket)
    bucketMinutes
  let final := smoothingStep movingAvg maWindow agg
  let labels := final.map (fun d => chartLabel fmt aggregationMode d.timestamp)
  let dataPoints := final.map (fun d => d.value)
  { labels := labels, dataPoints := dataPoints, points := final }

/-! ## The export rows (`exportCSV`) -/

/-- A cell of a row of `exportCSV`: a string literal, the ISO timestamp of a point
(given by its instant) or the value of a point. -/
inductive Cell where
  | text (s : String)
  | time (t : Int)
  | number (v : ℚ)
deriving DecidableEq, Repr

/-- The array `rows` of `exportCSV`: `[["timestamp", "value"]]`, then
`rows.push([p.timestamp, p.value])` for every point of `aggregated.points`. -/
def exportRows (points : List Point) : List (List Cell) :=
  points.foldl (fun rows p => rows ++ [[Cell.time p.timestamp, Cell.number p.value]])
    [[Cell.text "timestamp", Cell.text "value"]]

/-! ## The preset effect -/

/-- The statement `d.setDate(d.getDate() + k)` for a whole `k`: the same local time of
day `k` calendar days later. -/
def setDateShift (tz t k : Int) : Int := utcTime tz (localTime tz t + k * msPerDay)

/-- The expression `d.toISOString().slice(0, 10)`: the calendar day of the instant in
UTC, given by its number. -/
def isoDateOnly (t : Int) : Int := floorDiv t msPerDay

/-- The preset effect, run at the instant `now` with the states `rangePreset`,
`startDate` and `endDate` (each date string given by the number of the calendar day it
names); returns the values passed to `setStartDate` and `setEndDate`. -/
def presetEffect (tz now : Int) (rangePreset : String) (startDate endDate : Int) : Int × Int :=
  let se : Int × Int :=
    if rangePreset = "today" then (now, now)
    else if rangePreset = "yesterday" then
      let y := setDateShift tz now (-1)
      (y, y)
    else if rangePreset = "last7" then
      let sD := setDateShift tz now (-6)
      (sD, now)
    else
      (utcTime tz (startDate * msPerDay), utcTime tz (endDate * msPerDay))
  (isoDateOnly se.1, isoDateOnly se.2)

/-! ## Snapshot values and `gatherFromNode` -/

/-- A value returned by `snapshot.val()`: `null`, a boolean, a number, a string, or an
object given by its properties in the order of `Object.values` (an array is the object of
its indices). -/
inductive Node where
  | null
  | bool (b : Bool)
  | number (x : ℚ)
  | string (s : String)
  | object (fields : List (String × Node))

/-- An element of the array `collected` of `gatherFromNode`: the record with the
fields `timestamp` and `flowRate`, both as found in the snapshot. -/
structure RawSample where
  timestamp : Node
  flowRate : Node

/-- Truthiness of a value: `null`, `false`, `0` and the empty string are falsy. -/
def truthy (v : Node) : Bool :=
  match v with
  | .null => false
  | .bool b => b
  | .number x => decide (x ≠ 0)
  | .string s => decide (s ≠ "")
  | .object _ => true

/-- The property access `n.name` on an object: `none` stands for `undefined`. -/
def prop (fields : List (String × Node)) (name : String) : Option Node :=
  (fields.find? (fun kv => kv.1 == name)).map (fun kv => kv.2)

mutual
/-- The inner function `gather(n)` of `gatherFromNode`, returning what it pushes to
`collected`: nothing for `null` and for a value that is not an object; one record for an
object with a truthy `ts` and a defined `volume_ml` or `flowRate`; otherwise what the
values of the object give, in order. -/
def gather : Node → List RawSample
  | .object fields =>
    match prop fields "ts", prop fields "volume_ml", prop fields "flowRate" with
    | some ts, some volume_ml, _ =>
      if truthy ts then [{ timestamp := ts, flowRate := volume_ml }] else gatherValues fields
    | some ts, none, some flowRate =>
      if truthy ts then [{ timestamp := ts, flowRate := flowRate }] else gatherValues fields
    | _, _, _ => gatherValues fields
  | _ => []
/-- The statement `Object.values(n).forEach((c) => gather(c))`. -/
def gatherValues : List (String × Node) → List RawSample
  | [] => []
  | (_, c) :: rest => gather c ++ gatherValues rest
end

/-- The function `gatherFromNode(node)`. -/
def gatherFromNode (node : Node) : List RawSample := gather node

/-- An object is sample-shaped when its `ts` is truthy and its `volume_ml` or its
`flowRate` is defined. -/
def sampleShaped (fields : List (String × Node)) : Bool :=
  (match prop fields "ts" with
    | some ts => truthy ts
    | none => false) &&
  ((prop fields "volume_ml").isSome || (prop fields "flowRate").isSome)

/-- The record of a sample-shaped object: `timestamp` is its `ts`, `flowRate` is its
`volume_ml` when that is defined and its `flowRate` otherwise. -/
def sampleEntry (fields : List (String × Node)) : RawSample :=
  { timestamp := (prop fields "ts").getD Node.null
    flowRate :=
      match prop fields "volume_ml" with
      | some v => v
      | none => (prop fields "flowRate").getD Node.null }

mutual
/-- The sample-shaped objects of a value that are reachable without passing through
another sample-shaped object, in traversal order, each given by its properties. -/
def outermostSamples : Node → List (List (String × Node))
  | .object fields => if sampleShaped fields then [fields] else outermostSamplesIn fields
  | _ => []
/-- The same for the values of an object, in order. -/
def outermostSamplesIn : List (String × Node) → List (List (String × Node))
  | [] => []
  | (_, c) :: rest => outermostSamples c ++ outermostSamplesIn rest
end

/-! ## The free devices of `AddPatient` -/

/-- An element of `list` in the devices listener of `AddPatient`, as far as the filter
reads it: its `id` and its property `patientId` (`none` stands for `undefined`). -/
structure Device where
  id : Node
  patientId : Option Node

/-- The expression `Object.keys(data).map(...)`, which builds for every key `k` an object
from `id: k` followed by the spread of `data[k]` (nothing when that is falsy), on
the object `data` of the devices, given by its properties: the properties of the device
are spread over `id`. -/
def deviceList (data : List (String × Node)) : List Device :=
  data.map (fun kv =>
    match kv.2 with
    | .object fields =>
      { id := (prop fields "id").getD (Node.string kv.1), patientId := prop fields "patientId" }
    | _ => { id := Node.string kv.1, patientId := none })

/-- The strict comparison `v === s` with a string. -/
def strictEqString (v : Node) (s : String) : Bool :=
  match v with
  | .string t => t == s
  | _ => false

/-- The strict comparison `v === x` with a number. -/
def strictEqNumber (v : Node) (x : ℚ) : Bool :=
  match v with
  | .number y => decide (y = x)
  | _ => false

/-- The predicate of `list.filter((d) => ...)`:
`const pid = d.patientId ?? d.patientId ?? null; return !pid || pid === "" || pid === -1;`. -/
def isFree (d : Device) : Bool :=
  let pid : Node :=
    match d.patientId with
    | none => Node.null
    | some Node.null => Node.null
    | some v => v
  !truthy pid || strictEqString pid "" || strictEqNumber pid (-1)

/-- The list `free` passed to `setAvailableDevices`. -/
def availableDevices (data : List (String × Node)) : List Device :=
  (deviceList data).filter isFree

/-- The device object that `handleCreate` of the device page writes for the key
`deviceKey`, with the properties that matter here: `patientId: "-1"` (not assigned). -/
def createdDevice (deviceKey : String) : Node :=
  Node.object [("deviceId", Node.string deviceKey), ("patientId", Node.string "-1"),
    ("model", Node.string "ESP32_v1"), ("status", Node.string "inactive")]

/-! ## Bucket counts -/

/-- The `count` of an entry of `buckets`, 0 for an index without entry. -/
def bucketCount (b : Option Bucket) : Nat :=
  match b with
  | some x => x.count
  | none => 0

/-! # Theorems -/

/-! ## Lemmas on `aggregateSamples` -/

theorem floorDiv_eq_ediv (a : Int) {b : Int} (h : 0 < b) : floorDiv a b = a / b :=
  Int.fdiv_eq_ediv a (le_of_lt h)

theorem foldl_min_spec (l : List TV) (a : Int) :
    (l.foldl (fun m x => min m x.t) a = a ∨ ∃ x ∈ l, l.foldl (fun m x => min m x.t) a = x.t) ∧
    l.foldl (fun m x => min m x.t) a ≤ a ∧
    ∀ x ∈ l, l.foldl (fun m x => min m x.t) a ≤ x.t := by
  induction l generalizing a with
  | nil => simp
  | cons p l ih =>
    simp only [List.foldl_cons, List.mem_cons]
    obtain ⟨h1, h2, h3⟩ := ih (min a p.t)
    refine ⟨?_, le_trans h2 (min_le_left _ _), ?_⟩
    · rcases h1 with h | ⟨x, hx, h⟩
      · rcases min_choice a p.t with hc | hc
        · left; rw [h, hc]
        · right; exact ⟨p, Or.inl rfl, by rw [h, hc]⟩
      · right; exact ⟨x, Or.inr hx, h⟩
    · intro x hx
      rcases hx with rfl | hx
      · exact le_trans h2 (min_le_right _ _)
      · exact h3 x hx

theorem foldl_max_spec (l : List TV) (a : Int) :
    (l.foldl (fun m x => max m x.t) a = a ∨ ∃ x ∈ l, l.foldl (fun m x => max m x.t) a = x.t) ∧
    a ≤ l.foldl (fun m x => max m x.t) a ∧
    ∀ x ∈ l, x.t ≤ l.foldl (fun m x => max m x.t) a := by
  induction l generalizing a with
  | nil => simp
  | cons p l ih =>
    simp only [List.foldl_cons, List.mem_cons]
    obtain ⟨h1, h2, h3⟩ := ih (max a p.t)
    refine ⟨?_, le_trans (le_max_left _ _) h2, ?_⟩
    · rcases h1 with h | ⟨x, hx, h⟩
      · rcases max_choice a p.t with hc | hc
        · left; rw [h, hc]
        · right; exact ⟨p, Or.inl rfl, by rw [h, hc]⟩
      · right; exact ⟨x, Or.inr hx, h⟩
    · intro x hx
      rcases hx with rfl | hx
      · exact le_trans (le_max_right _ _) h2
      · exact h3 x hx

/-- The earliest instant computed by the code is the least timestamp of the list. -/
theorem foldl_min_eq (s : Sample) (rest : List Sample) (earliest : Int)
    (hmem : ∃ x ∈ s :: rest, x.timestamp = earliest)
    (hle : ∀ x ∈ s :: rest, earliest ≤ x.timestamp) :
    (rest.map toTV).foldl (fun m x => min m x.t) (toTV s).t = earliest := by
  obtain ⟨h1, h2, h3⟩ := foldl_min_spec (rest.map toTV) (toTV s).t
  apply le_antisymm
  · obtain ⟨x, hx, rfl⟩ := hmem
    rcases List.mem_cons.1 hx with rfl | hx
    · exact h2
    · exact h3 (toTV x) (List.mem_map_of_mem _ hx)
  · rcases h1 with h | ⟨x, hx, h⟩
    · rw [h]; exact hle s (List.mem_cons_self _ _)
    · rw [h]
      obtain ⟨y, hy, rfl⟩ := List.mem_map.1 hx
      exact hle y (List.mem_cons_of_mem _ hy)

/-- The latest instant computed by the code is the greatest timestamp of the list. -/
theorem foldl_max_eq (s : Sample) (rest : List Sample) (latest : Int)
    (hmem : ∃ x ∈ s :: rest, x.timestamp = latest)
    (hle : ∀ x ∈ s :: rest, x.timestamp ≤ latest) :
    (rest.map toTV).foldl (fun m x => max m x.t) (toTV s).t = latest := by
  obtain ⟨h1, h2, h3⟩ := foldl_max_spec (rest.map toTV) (toTV s).t
  apply le_antisymm
  · rcases h1 with h | ⟨x, hx, h⟩
    · rw [h]; exact hle s (List.mem_cons_self _ _)
    · rw [h]
      obtain ⟨y, hy, rfl⟩ := List.mem_map.1 hx
      exact hle y (List.mem_cons_of_mem _ hy)
  · obtain ⟨x, hx, rfl⟩ := hmem
    rcases List.mem_cons.1 hx with rfl | hx
    · exact h2
    · exact h3 (toTV x) (List.mem_map_of_mem _ hx)

/-- After the `forEach` pass over `l`, the entry of index `i` is unchanged when no
element of `l` has index `i`; otherwise it holds the previous sum and count (zero for an
absent entry) increased by the sum and the number of the elements of index `i`. -/
theorem foldl_addToBucket (mn w : Int) (l : List TV) (bk : Int → Option Bucket) (i : Int) :
    (l.foldl (addToBucket mn w) bk) i =
      if l.filter (fun p => decide (floorDiv (p.t - mn) w = i)) = [] then bk i
      else some
        { sum := ((bk i).getD ⟨0, 0, mn + i * w⟩).sum +
            ((l.filter (fun p => decide (floorDiv (p.t - mn) w = i))).map (·.v)).sum
          count := ((bk i).getD ⟨0, 0, mn + i * w⟩).count +
            (l.filter (fun p => decide (floorDiv (p.t - mn) w = i))).length
          start := ((bk i).getD ⟨0, 0, mn + i * w⟩).start } := by
  induction l generalizing bk with
  | nil => simp
  | cons p l ih =>
    rw [List.foldl_cons, ih]
    by_cases hp : floorDiv (p.t - mn) w = i
    · have hbk : addToBucket mn w bk p i =
          some { sum := ((bk i).getD ⟨0, 0, mn + i * w⟩).sum + p.v
                 count := ((bk i).getD ⟨0, 0, mn + i * w⟩).count + 1
                 start := ((bk i).getD ⟨0, 0, mn + i * w⟩).start } := by
        simp only [addToBucket, hp, Function.update_same]
        cases bk i <;> rfl
      rw [hbk]
      simp only [List.filter_cons, hp, decide_True, if_true, List.map_cons, List.sum_cons,
        List.length_cons, Option.getD_some]
      split
      · rename_i h
        simp [h]
      · simp only [reduceCtorEq, if_false, Option.some.injEq, Bucket.mk.injEq, and_true]
        constructor
        · ring
        · omega
    · have hbk : addToBucket mn w bk p i = bk i := by
        simp only [addToBucket]
        exact Function.update_noteq (Ne.symm hp) _ _
      rw [hbk]
      simp [List.filter_cons, hp]

theorem bucketValue_foldl (mn w : Int) (hw : 0 < w) (samples : List Sample) (i : Int) :
    bucketValue (((samples.map toTV).foldl (addToBucket mn w) (fun _ => none)) i) =
      if samples.filter (fun s => decide ((s.timestamp - mn) / w = i)) = [] then 0
      else ((samples.filter (fun s => decide ((s.timestamp - mn) / w = i))).map (·.flowRate)).sum /
        ((samples.filter (fun s => decide ((s.timestamp - mn) / w = i))).length : ℚ) := by
  rw [foldl_addToBucket]
  have hf : (samples.map toTV).filter (fun p => decide (floorDiv (p.t - mn) w = i)) =
      (samples.filter (fun s => decide ((s.timestamp - mn) / w = i))).map toTV := by
    rw [List.filter_map]
    congr 1
    apply List.filter_congr
    intro s _
    simp [toTV, floorDiv_eq_ediv _ hw]
  rw [hf]
  by_cases h : samples.filter (fun s => decide ((s.timestamp - mn) / w = i)) = []
  · simp [h, bucketValue]
  · have h2 : (samples.filter (fun s => decide ((s.timestamp - mn) / w = i))).map toTV ≠ [] := by
      simpa using h
    rw [if_neg h2, if_neg h]
    simp [bucketValue, List.map_map, Function.comp_def, toTV]

/-- Closed form of bucket mode on a non-empty list. -/
theorem aggregateSamples_bucket_eq (samples : List Sample) (bucketMinutes earliest latest w mn : Int)
    (hpos : 0 < bucketMinutes)
    (hmin : ∃ x ∈ samples, x.timestamp = earliest) (hlo : ∀ x ∈ samples, earliest ≤ x.timestamp)
    (hmax : ∃ x ∈ samples, x.timestamp = latest) (hhi : ∀ x ∈ samples, x.timestamp ≤ latest)
    (hw : w = bucketMinutes * 60 * 1000) (hmn : mn = earliest / w * w) :
    aggregateSamples samples .bucket bucketMinutes =
      (List.range ((latest - mn) / w + 1).toNat).map (fun i : Nat =>
        ({ timestamp := mn + (i : Int) * w
           value :=
            if samples.filter (fun s => decide ((s.timestamp - mn) / w = (i : Int))) = [] then 0
            else ((samples.filter (fun s => decide ((s.timestamp - mn) / w = (i : Int)))).map
                (·.flowRate)).sum /
              ((samples.filter (fun s => decide ((s.timestamp - mn) / w = (i : Int)))).length : ℚ) } :
          Point)) := by
  have hwpos : 0 < w := by rw [hw]; omega
  cases samples with
  | nil => obtain ⟨x, hx, _⟩ := hmin; cases hx
  | cons s rest =>
    simp only [aggregateSamples]
    rw [foldl_min_eq s rest earliest hmin hlo, foldl_max_eq s rest latest hmax hhi, ← hw,
      floorDiv_eq_ediv _ hwpos, ← hmn, floorDiv_eq_ediv _ hwpos]
    apply List.map_congr_left
    intro i _
    rw [bucketValue_foldl mn w hwpos (s :: rest) (i : Int)]

/-- Bounds on the aligned minimum and the last bucket index. -/
theorem bucket_bounds (earliest latest w mn : Int) (hwpos : 0 < w) (hle : earliest ≤ latest)
    (hmn : mn = earliest / w * w) :
    mn ≤ earliest ∧ earliest < mn + w ∧ 0 ≤ (latest - mn) / w ∧
      mn + (latest - mn) / w * w ≤ latest ∧ latest < mn + (latest - mn) / w * w + w := by
  have h1 : earliest / w * w ≤ earliest := Int.ediv_mul_le _ (ne_of_gt hwpos)
  have h2 : earliest < earliest / w * w + w := Int.lt_ediv_add_one_mul_self earliest hwpos |>.trans_eq (by ring)
  have h3 : (latest - mn) / w * w ≤ latest - mn := Int.ediv_mul_le _ (ne_of_gt hwpos)
  have h4 : latest - mn < (latest - mn) / w * w + w :=
    Int.lt_ediv_add_one_mul_self (latest - mn) hwpos |>.trans_eq (by ring)
  have h5 : 0 ≤ (latest - mn) / w := Int.ediv_nonneg (by omega) (le_of_lt hwpos)
  subst hmn
  refine ⟨h1, h2, h5, by omega, by omega⟩

/-! ## Bucket mode of `aggregateSamples` -/

/-- C1: in bucket mode, for a non-empty sample list with earliest timestamp `earliest`
and latest timestamp `latest`, a width `w = bucketMinutes * 60 * 1000 > 0` and
`mn = floor(earliest / w) * w`, the point at every index `i ≤ floor((latest - mn) / w)`
exists, and its value is the arithmetic mean of the flow rates of exactly the samples
whose index `floor((t - mn) / w)` is `i`, or `0` when there is no such sample.
(Division of integers by the positive `w` is the floor.) -/
theorem aggregateSamples_bucket_mean (samples : List Sample)
    (bucketMinutes earliest latest w mn : Int) (i : Nat) (bucketSamples : List Sample)
    (hpos : 0 < bucketMinutes)
    (hmin : ∃ x ∈ samples, x.timestamp = earliest) (hlo : ∀ x ∈ samples, earliest ≤ x.timestamp)
    (hmax : ∃ x ∈ samples, x.timestamp = latest) (hhi : ∀ x ∈ samples, x.timestamp ≤ latest)
    (hw : w = bucketMinutes * 60 * 1000) (hmn : mn = earliest / w * w)
    (hi : (i : Int) ≤ (latest - mn) / w)
    (hS : bucketSamples =
      samples.filter (fun s => decide ((s.timestamp - mn) / w = (i : Int)))) :
    (aggregateSamples samples .bucket bucketMinutes)[i]? = some
      { timestamp := mn + (i : Int) * w
        value := if bucketSamples = [] then 0
          else (bucketSamples.map (·.flowRate)).sum / (bucketSamples.length : ℚ) } := by
  rw [aggregateSamples_bucket_eq samples bucketMinutes earliest latest w mn hpos hmin hlo hmax hhi
    hw hmn, List.getElem?_map, List.getElem?_range (by omega), hS]
  rfl

/-- C1, the scenario of the specification: samples at 09:00 (100), 09:30 (200) and
10:15 (50) with a 60-minute width give the values 150 and 50. -/
theorem aggregateSamples_bucket_mean_witness :
    (aggregateSamples [⟨at2024 9 0, 100⟩, ⟨at2024 9 30, 200⟩, ⟨at2024 10 15, 50⟩] .bucket 60)[0]? =
        some ⟨at2024 9 0, 150⟩ ∧
    (aggregateSamples [⟨at2024 9 0, 100⟩, ⟨at2024 9 30, 200⟩, ⟨at2024 10 15, 50⟩] .bucket 60)[1]? =
        some ⟨at2024 10 0, 50⟩ := by
  constructor
  · rw [aggregateSamples_bucket_mean [⟨at2024 9 0, 100⟩, ⟨at2024 9 30, 200⟩, ⟨at2024 10 15, 50⟩]
      60 (at2024 9 0) (at2024 10 15) 3600000 (at2024 9 0) 0
      [⟨at2024 9 0, 100⟩, ⟨at2024 9 30, 200⟩]
      (by decide) (by decide) (by decide) (by decide) (by decide) (by decide) (by decide)
      (by decide) (by decide), if_neg (List.cons_ne_nil _ _)]
    norm_num
  · rw [aggregateSamples_bucket_mean [⟨at2024 9 0, 100⟩, ⟨at2024 9 30, 200⟩, ⟨at2024 10 15, 50⟩]
      60 (at2024 9 0) (at2024 10 15) 3600000 (at2024 9 0) 1
      [⟨at2024 10 15, 50⟩]
      (by decide) (by decide) (by decide) (by decide) (by decide) (by decide) (by decide)
      (by decide) (by decide), if_neg (List.cons_ne_nil _ _)]
    norm_num [at2024]

/-- C2: in bucket mode, for a non-empty sample list with earliest timestamp `earliest`
and latest timestamp `latest`, a width `w = bucketMinutes * 60 * 1000 > 0` and
`mn = floor(earliest / w) * w`, the result has exactly `floor((latest - mn) / w) + 1`
points. -/
theorem aggregateSamples_bucket_length (samples : List Sample)
    (bucketMinutes earliest latest w mn : Int)
    (hpos : 0 < bucketMinutes)
    (hmin : ∃ x ∈ samples, x.timestamp = earliest) (hlo : ∀ x ∈ samples, earliest ≤ x.timestamp)
    (hmax : ∃ x ∈ samples, x.timestamp = latest) (hhi : ∀ x ∈ samples, x.timestamp ≤ latest)
    (hw : w = bucketMinutes * 60 * 1000) (hmn : mn = earliest / w * w) :
    ((aggregateSamples samples .bucket bucketMinutes).length : Int) = (latest - mn) / w + 1 := by
  have hwpos : 0 < w := by rw [hw]; omega
  have hle : earliest ≤ latest := by
    obtain ⟨x, hx, rfl⟩ := hmax
    exact hlo x hx
  obtain ⟨_, _, h0, _, _⟩ := bucket_bounds earliest latest w mn hwpos hle hmn
  rw [aggregateSamples_bucket_eq samples bucketMinutes earliest latest w mn hpos hmin hlo hmax hhi
    hw hmn, List.length_map, List.length_range]
  omega

/-- C2 on samples at 09:00, 09:30 and 12:15 with a 60-minute width: four points,
two of them for hours without a sample. -/
theorem aggregateSamples_bucket_length_witness :
    ((aggregateSamples [⟨at2024 9 0, 100⟩, ⟨at2024 9 30, 200⟩, ⟨at2024 12 15, 50⟩]
      .bucket 60).length : Int) = 4 :=
  aggregateSamples_bucket_length [⟨at2024 9 0, 100⟩, ⟨at2024 9 30, 200⟩, ⟨at2024 12 15, 50⟩]
    60 (at2024 9 0) (at2024 12 15) 3600000 (at2024 9 0)
    (by decide) (by decide) (by decide) (by decide) (by decide) (by decide) (by decide)

/-- C3: in bucket mode, for a non-empty sample list with earliest timestamp `earliest`
and latest timestamp `latest`, a width `w = bucketMinutes * 60 * 1000 > 0` and
`mn = floor(earliest / w) * w`, the timestamps of the points are `mn + i * w` for
`i = 0, 1, ...` up to `floor((latest - mn) / w)`; every bucket start is a multiple of
`w`; consecutive starts differ by exactly `w`; the first bucket `[mn, mn + w)` holds the
earliest timestamp and the last bucket holds the latest timestamp. -/
theorem aggregateSamples_bucket_contiguous (samples : List Sample)
    (bucketMinutes earliest latest w mn : Int)
    (hpos : 0 < bucketMinutes)
    (hmin : ∃ x ∈ samples, x.timestamp = earliest) (hlo : ∀ x ∈ samples, earliest ≤ x.timestamp)
    (hmax : ∃ x ∈ samples, x.timestamp = latest) (hhi : ∀ x ∈ samples, x.timestamp ≤ latest)
    (hw : w = bucketMinutes * 60 * 1000) (hmn : mn = earliest / w * w) :
    (aggregateSamples samples .bucket bucketMinutes).map (·.timestamp) =
        (List.range ((latest - mn) / w + 1).toNat).map (fun i : Nat => mn + (i : Int) * w) ∧
    (∀ pt ∈ aggregateSamples samples .bucket bucketMinutes, w ∣ pt.timestamp) ∧
    (∀ (i : Nat) (a b : Point),
      (aggregateSamples samples .bucket bucketMinutes)[i]? = some a →
      (aggregateSamples samples .bucket bucketMinutes)[i + 1]? = some b →
      b.timestamp = a.timestamp + w) ∧
    mn ≤ earliest ∧ earliest < mn + w ∧
    ∃ last, (aggregateSamples samples .bucket bucketMinutes).getLast? = some last ∧
      last.timestamp ≤ latest ∧ latest < last.timestamp + w := by
  have hwpos : 0 < w := by rw [hw]; omega
  have hle : earliest ≤ latest := by
    obtain ⟨x, hx, rfl⟩ := hmax
    exact hlo x hx
  obtain ⟨b1, b2, b3, b4, b5⟩ := bucket_bounds earliest latest w mn hwpos hle hmn
  rw [aggregateSamples_bucket_eq samples bucketMinutes earliest latest w mn hpos hmin hlo hmax hhi
    hw hmn]
  refine ⟨?_, ?_, ?_, b1, b2, ?_⟩
  · rw [List.map_map]
    rfl
  · intro pt hpt
    obtain ⟨i, _, rfl⟩ := List.mem_map.1 hpt
    exact dvd_add (hmn ▸ Dvd.intro_left _ rfl) (Dvd.intro_left _ rfl)
  · intro i a b ha hb
    rw [List.getElem?_map] at ha hb
    cases hra : (List.range ((latest - mn) / w + 1).toNat)[i]? with
    | none => rw [hra] at ha; cases ha
    | some j =>
      cases hrb : (List.range ((latest - mn) / w + 1).toNat)[i + 1]? with
      | none => rw [hrb] at hb; cases hb
      | some k =>
        rw [hra] at ha
        rw [hrb] at hb
        have hj := (List.getElem?_eq_some_iff.1 hra).2
        have hk := (List.getElem?_eq_some_iff.1 hrb).2
        rw [List.getElem_range] at hj hk
        subst hj hk
        simp only [Option.map_some', Option.some.injEq] at ha hb
        subst ha hb
        simp only [Nat.cast_add, Nat.cast_one]
        ring
  · obtain ⟨k, hk⟩ : ∃ k : Nat, ((latest - mn) / w + 1).toNat = k + 1 ∧ (k : Int) = (latest - mn) / w :=
      ⟨((latest - mn) / w).toNat, by omega, by omega⟩
    rw [hk.1, List.range_succ, List.map_append, List.map_singleton, List.getLast?_append,
      List.getLast?_singleton]
    refine ⟨_, rfl, ?_, ?_⟩
    · simp only [hk.2]; exact b4
    · simp only [hk.2]; exact b5

/-- C3 on samples at 09:00, 09:30 and 12:15 with a 60-minute width: the bucket starts
are 09:00, 10:00, 11:00 and 12:00. -/
theorem aggregateSamples_bucket_contiguous_witness :
    (aggregateSamples [⟨at2024 9 0, 100⟩, ⟨at2024 9 30, 200⟩, ⟨at2024 12 15, 50⟩]
      .bucket 60).map (·.timestamp) = [at2024 9 0, at2024 10 0, at2024 11 0, at2024 12 0] :=
  (aggregateSamples_bucket_contiguous
    [⟨at2024 9 0, 100⟩, ⟨at2024 9 30, 200⟩, ⟨at2024 12 15, 50⟩]
    60 (at2024 9 0) (at2024 12 15) 3600000 (at2024 9 0)
    (by decide) (by decide) (by decide) (by decide) (by decide) (by decide) (by decide)).1.trans
    (by decide)

/-! ## Stable sorting by an integer key -/

theorem filter_orderedInsert {α : Type} (f : α → Int) (t : Int) (a : α) (l : List α) :
    (l.orderedInsert (fun x y => f x ≤ f y) a).filter (fun x => decide (f x = t)) =
      (a :: l).filter (fun x => decide (f x = t)) := by
  induction l with
  | nil => rfl
  | cons b l ih =>
    rw [List.orderedInsert]
    split
    · rfl
    · rename_i hab
      rw [List.filter_cons, ih]
      by_cases hb : f b = t
      · have ha : ¬ f a = t := by omega
        simp [List.filter_cons, ha, hb]
      · simp [List.filter_cons, hb]

/-- Insertion sort keeps the elements of equal key in their input order. -/
theorem filter_insertionSort {α : Type} (f : α → Int) (t : Int) (l : List α) :
    (l.insertionSort (fun x y => f x ≤ f y)).filter (fun x => decide (f x = t)) =
      l.filter (fun x => decide (f x = t)) := by
  induction l with
  | nil => rfl
  | cons a l ih =>
    rw [List.insertionSort, filter_orderedInsert, List.filter_cons, List.filter_cons, ih]

theorem sorted_insertionSort_key {α : Type} (f : α → Int) (l : List α) :
    (l.insertionSort (fun x y => f x ≤ f y)).Sorted (fun x y => f x ≤ f y) := by
  haveI : IsTotal α (fun x y => f x ≤ f y) := ⟨fun x y => le_total (f x) (f y)⟩
  haveI : IsTrans α (fun x y => f x ≤ f y) := ⟨fun _ _ _ h1 h2 => le_trans h1 h2⟩
  exact List.sorted_insertionSort _ l

/-- Two lists sorted by key that agree on the elements of every key are equal. -/
theorem eq_of_sorted_of_filter_eq {α : Type} (f : α → Int) (l₁ l₂ : List α)
    (h₁ : l₁.Sorted (fun x y => f x ≤ f y)) (h₂ : l₂.Sorted (fun x y => f x ≤ f y))
    (h : ∀ t, l₁.filter (fun x => decide (f x = t)) = l₂.filter (fun x => decide (f x = t))) :
    l₁ = l₂ := by
  induction l₁ generalizing l₂ with
  | nil =>
    cases l₂ with
    | nil => rfl
    | cons b l₂ =>
      have := h (f b)
      simp [List.filter_cons] at this
  | cons a l₁ ih =>
    cases l₂ with
    | nil =>
      have := h (f a)
      simp [List.filter_cons] at this
    | cons b l₂ =>
      have ha := List.rel_of_sorted_cons h₁
      have hb := List.rel_of_sorted_cons h₂
      have hbmem : b ∈ a :: l₁ := by
        have : b ∈ (b :: l₂).filter (fun x => decide (f x = f b)) := by simp
        rw [← h (f b)] at this
        exact (List.mem_filter.1 this).1
      have hamem : a ∈ b :: l₂ := by
        have : a ∈ (a :: l₁).filter (fun x => decide (f x = f a)) := by simp
        rw [h (f a)] at this
        exact (List.mem_filter.1 this).1
      have hab : f a ≤ f b := by
        rcases List.mem_cons.1 hbmem with e | hm
        · rw [e]
        · exact ha b hm
      have hba : f b ≤ f a := by
        rcases List.mem_cons.1 hamem with e | hm
        · rw [e]
        · exact hb a hm
      have hfe : f b = f a := le_antisymm hba hab
      have hhead := h (f a)
      simp only [List.filter_cons, hfe, decide_True, if_true, List.cons.injEq] at hhead
      obtain ⟨rfl, _⟩ := hhead
      congr 1
      apply ih l₂ (List.Sorted.of_cons h₁) (List.Sorted.of_cons h₂)
      intro t
      have ht := h t
      simp only [List.filter_cons] at ht
      split at ht
      · exact (List.cons.inj ht).2
      · exact ht

/-! ## Raw mode of `aggregateSamples` -/

/-- C4: in raw mode the output has the length of the input, is a permutation of the
input's `(timestamp, value)` pairs, has non-decreasing timestamps, and for every
timestamp lists the samples of that timestamp in their input order. -/
theorem aggregateSamples_raw (samples : List Sample) (bucketMinutes : Int) :
    (aggregateSamples samples .raw bucketMinutes).length = samples.length ∧
    (aggregateSamples samples .raw bucketMinutes).Perm
      (samples.map (fun s => ({ timestamp := s.timestamp, value := s.flowRate } : Point))) ∧
    (aggregateSamples samples .raw bucketMinutes).Sorted
      (fun a b => a.timestamp ≤ b.timestamp) ∧
    ∀ t : Int,
      (aggregateSamples samples .raw bucketMinutes).filter (fun p => decide (p.timestamp = t)) =
        (samples.map (fun s => ({ timestamp := s.timestamp, value := s.flowRate } : Point))).filter
          (fun p => decide (p.timestamp = t)) := by
  cases samples with
  | nil => simp [aggregateSamples]
  | cons s rest =>
    have hperm : ((sortByT ((s :: rest).map toTV)).map
        (fun x => ({ timestamp := x.t, value := x.v } : Point))).Perm
        ((s :: rest).map (fun s => ({ timestamp := s.timestamp, value := s.flowRate } : Point))) := by
      have := (List.perm_insertionSort (fun a b : TV => a.t ≤ b.t) ((s :: rest).map toTV)).map
        (fun x => ({ timestamp := x.t, value := x.v } : Point))
      rw [List.map_map] at this
      exact this
    simp only [aggregateSamples]
    refine ⟨?_, hperm, ?_, ?_⟩
    · rw [hperm.length_eq, List.length_map]
    · rw [List.Sorted, List.pairwise_map]
      exact sorted_insertionSort_key TV.t _
    · intro t
      rw [List.filter_map, List.filter_map]
      have h := filter_insertionSort TV.t t ((s :: rest).map toTV)
      have e1 : ((fun p : Point => decide (p.timestamp = t)) ∘
          fun x : TV => ({ timestamp := x.t, value := x.v } : Point)) =
          fun x : TV => decide (x.t = t) := rfl
      rw [e1, sortByT, h, List.filter_map, List.map_map]
      rfl

/-! ## `movingAverage` -/

theorem foldl_sum_count (g : Nat → ℚ) (n : Nat) (a : ℚ) (c : Nat) :
    (List.range n).foldl (fun (acc : ℚ × Nat) (k : Nat) => (acc.1 + g k, acc.2 + 1)) (a, c) =
      (a + ((List.range n).map g).sum, c + n) := by
  induction n with
  | zero => simp
  | succ n ih =>
    rw [List.range_succ, List.foldl_append, ih]
    simp [add_assoc]

/-- The loop over the index range `lo .. hi` inside the array sums the values at these
indices and counts them. -/
theorem windowLoop_eq (vals : List ℚ) (lo hi : Nat) (hlohi : lo ≤ hi) (hhi : hi < vals.length) :
    windowLoop vals (lo : Int) (hi : Int) = (((vals.take (hi + 1)).drop lo).sum, hi + 1 - lo) := by
  rw [windowLoop, foldl_sum_count (fun (k : Nat) => vals.getD ((lo : Int) + (k : Int)).toNat 0)]
  have hn : ((hi : Int) + 1 - (lo : Int)).toNat = hi + 1 - lo := by omega
  rw [hn]
  have hlist : (List.range (hi + 1 - lo)).map (fun (k : Nat) => vals.getD ((lo : Int) + (k : Int)).toNat 0) =
      (vals.take (hi + 1)).drop lo := by
    apply List.ext_getElem
    · simp only [List.length_map, List.length_range, List.length_drop, List.length_take]
      omega
    · intro k h1 h2
      simp only [List.length_map, List.length_range] at h1
      have hk : ((lo : Int) + (k : Int)).toNat = lo + k := by omega
      simp only [List.getElem_map, List.getElem_range, hk, List.getElem_drop, List.getElem_take]
      rw [List.getD_eq_getElem _ _ (by omega)]
  rw [hlist]
  simp

/-- C5: for a window size `w ≥ 1` and an index `i` of the sequence, with
`lo = max(0, i - floor(w/2))` and `hi = min(n - 1, i + floor(w/2))`, the range `lo .. hi`
lies inside the sequence and contains `i`, and the smoothed value at `i` is the sum of
the input values at the indices `lo .. hi` divided by their number `hi - lo + 1`. -/
theorem movingAverage_window (data : List Point) (windowSize : Int) (i lo hi : Nat)
    (hw : 1 ≤ windowSize) (hi_lt : i < data.length)
    (hlo : (lo : Int) = max 0 ((i : Int) - windowSize / 2))
    (hhi : (hi : Int) = min ((data.length : Int) - 1) ((i : Int) + windowSize / 2)) :
    lo ≤ i ∧ i ≤ hi ∧ hi < data.length ∧
    (((data.map (fun d => d.value)).take (hi + 1)).drop lo).length = hi - lo + 1 ∧
    ((movingAverage data windowSize)[i]?).map (fun p => p.value) =
      some ((((data.map (fun d => d.value)).take (hi + 1)).drop lo).sum / ((hi - lo + 1 : Nat) : ℚ)) := by
  have hhalf : 0 ≤ windowSize / 2 := Int.ediv_nonneg (by omega) (by decide)
  have h1 : lo ≤ i := by omega
  have h2 : i ≤ hi := by omega
  have h3 : hi < data.length := by omega
  refine ⟨h1, h2, h3, ?_, ?_⟩
  · simp only [List.length_drop, List.length_take, List.length_map]
    omega
  · rw [movingAverage, List.getElem?_mapIdx, List.getElem?_eq_getElem hi_lt]
    simp only [Option.map_some', Option.some.injEq]
    rw [floorDiv, Int.fdiv_eq_ediv _ (by decide : (0 : Int) ≤ 2), ← hlo, ← hhi,
      windowLoop_eq _ lo hi (by omega) (by simpa using h3)]
    have hc : hi + 1 - lo = hi - lo + 1 := by omega
    simp only [hc]
    rw [if_pos (by omega)]

/-- C5, the scenario of the specification: window 3 over the values `1, 2, 3, 4, 5`
gives `1.5, 2, 3, 4, 4.5`; the first value is the mean over the indices `0 .. 1`. -/
theorem movingAverage_window_witness :
    ((movingAverage [⟨10, 1⟩, ⟨20, 2⟩, ⟨30, 3⟩, ⟨40, 4⟩, ⟨50, 5⟩] 3)[0]?).map (fun p => p.value) =
        some (3 / 2) ∧
    (movingAverage [⟨10, 1⟩, ⟨20, 2⟩, ⟨30, 3⟩, ⟨40, 4⟩, ⟨50, 5⟩] 3).map (fun p => p.value) =
        [3 / 2, 2, 3, 4, 9 / 2] := by
  constructor
  · rw [(movingAverage_window [⟨10, 1⟩, ⟨20, 2⟩, ⟨30, 3⟩, ⟨40, 4⟩, ⟨50, 5⟩] 3 0 0 1
      (by decide) (by decide) (by decide) (by decide)).2.2.2.2]
    norm_num
  · simp [movingAverage, windowLoop, floorDiv, Int.fdiv, List.mapIdx, List.mapIdx.go, List.range,
      List.range.loop]
    norm_num

/-! ## Lemmas on the per-day updaters -/

theorem notOnDay_eq (cal : LocalCalendar) (key : YMDParts) (p : Sample) :
    notOnDay cal key p = !decide (dateToYMDParts cal p.timestamp = key) := by
  cases key
  simp [notOnDay, dateToYMDParts, Bool.or_assoc]

theorem notOnDay_eq_true_iff (cal : LocalCalendar) (key : YMDParts) (p : Sample) :
    notOnDay cal key p = true ↔ dateToYMDParts cal p.timestamp ≠ key := by
  rw [notOnDay_eq]; simp

theorem map_sample_id (samples : List Sample) :
    samples.map (fun s => ({ timestamp := s.timestamp, flowRate := s.flowRate } : Sample)) =
      samples := by
  induction samples with
  | nil => rfl
  | cons s l ih => rw [List.map_cons, ih]

theorem replaceDay_eq (cal : LocalCalendar) (key : YMDParts) (samples prev : List Sample) :
    replaceDay cal key samples prev = sortByTimestamp (prev.filter (notOnDay cal key) ++ samples) := by
  simp only [replaceDay, map_sample_id]

theorem sorted_sortByTimestamp (l : List Sample) :
    (sortByTimestamp l).Sorted (fun a b => a.timestamp ≤ b.timestamp) :=
  sorted_insertionSort_key Sample.timestamp l

theorem filter_sortByTimestamp (t : Int) (l : List Sample) :
    (sortByTimestamp l).filter (fun p => decide (p.timestamp = t)) =
      l.filter (fun p => decide (p.timestamp = t)) :=
  filter_insertionSort Sample.timestamp t l

/-- Sorting a list that is already in timestamp order changes nothing. -/
theorem sortByTimestamp_of_sorted (l : List Sample)
    (h : l.Sorted (fun a b => a.timestamp ≤ b.timestamp)) : sortByTimestamp l = l :=
  eq_of_sorted_of_filter_eq Sample.timestamp _ _ (sorted_sortByTimestamp l) h
    (fun t => filter_sortByTimestamp t l)

theorem sorted_replaceDay (cal : LocalCalendar) (key : YMDParts) (samples prev : List Sample) :
    (replaceDay cal key samples prev).Sorted (fun a b => a.timestamp ≤ b.timestamp) := by
  rw [replaceDay_eq]; exact sorted_sortByTimestamp _

/-- The samples of timestamp `t` after a replace update: the retained ones in their
previous order, then those of the new batch in batch order. -/
theorem filter_replaceDay (cal : LocalCalendar) (key : YMDParts) (samples prev : List Sample)
    (t : Int) :
    (replaceDay cal key samples prev).filter (fun p => decide (p.timestamp = t)) =
      (prev.filter (notOnDay cal key)).filter (fun p => decide (p.timestamp = t)) ++
        samples.filter (fun p => decide (p.timestamp = t)) := by
  rw [replaceDay_eq, filter_sortByTimestamp, List.filter_append]

theorem sorted_applyUpdate (cal : LocalCalendar) (prev : List Sample) (u : DayUpdate)
    (h : prev.Sorted (fun a b => a.timestamp ≤ b.timestamp)) :
    (applyUpdate cal prev u).Sorted (fun a b => a.timestamp ≤ b.timestamp) := by
  cases u with
  | clear key => exact List.Sorted.filter _ h
  | replace key samples => exact sorted_replaceDay cal key samples prev

theorem sorted_applyUpdates (cal : LocalCalendar) (us : List DayUpdate) (prev : List Sample)
    (h : prev.Sorted (fun a b => a.timestamp ≤ b.timestamp)) :
    (applyUpdates cal prev us).Sorted (fun a b => a.timestamp ≤ b.timestamp) := by
  induction us generalizing prev with
  | nil => exact h
  | cons u us ih => exact ih _ (sorted_applyUpdate cal prev u h)

/-! ## The merged series -/

/-- C7: starting from the empty series, after every sequence of per-day replace and
clear updates the series is in non-decreasing timestamp order; a further replace update
lists, for every timestamp, the retained samples of that timestamp in their previous
order followed by the new batch's samples of that timestamp in batch order, and a
further clear update keeps the retained samples in their previous order. -/
theorem series_sorted_invariant (cal : LocalCalendar) (us : List DayUpdate) :
    (applyUpdates cal [] us).Sorted (fun a b => a.timestamp ≤ b.timestamp) ∧
    (∀ (key : YMDParts) (samples : List Sample) (t : Int),
      (applyUpdates cal [] (us ++ [DayUpdate.replace key samples])).filter
          (fun p => decide (p.timestamp = t)) =
        ((applyUpdates cal [] us).filter (notOnDay cal key)).filter
            (fun p => decide (p.timestamp = t)) ++
          samples.filter (fun p => decide (p.timestamp = t))) ∧
    (∀ (key : YMDParts),
      applyUpdates cal [] (us ++ [DayUpdate.clear key]) =
        (applyUpdates cal [] us).filter (notOnDay cal key)) := by
  refine ⟨sorted_applyUpdates cal us [] List.sorted_nil, ?_, ?_⟩
  · intro key samples t
    rw [applyUpdates, List.foldl_append]
    exact filter_replaceDay cal key samples _ t
  · intro key
    rw [applyUpdates, List.foldl_append]
    rfl

theorem filter_notOnDay_of_onDay (cal : LocalCalendar) (key : YMDParts) (l : List Sample)
    (h : ∀ p ∈ l, dateToYMDParts cal p.timestamp = key) : l.filter (notOnDay cal key) = [] := by
  rw [List.filter_eq_nil_iff]
  intro p hp
  rw [notOnDay_eq_true_iff]
  exact fun hne => hne (h p hp)

theorem filter_notOnDay_of_otherDay (cal : LocalCalendar) (key : YMDParts) (l : List Sample)
    (h : ∀ p ∈ l, dateToYMDParts cal p.timestamp ≠ key) : l.filter (notOnDay cal key) = l := by
  rw [List.filter_eq_self]
  intro p hp
  rw [notOnDay_eq_true_iff]
  exact h p hp

/-- The samples of timestamp `t` that a replace update for `key` followed by the
filter of a day `key2` leaves. -/
theorem filter_notOnDay_replaceDay (cal : LocalCalendar) (key key2 : YMDParts)
    (samples prev : List Sample) (t : Int) :
    ((replaceDay cal key samples prev).filter (notOnDay cal key2)).filter
        (fun p => decide (p.timestamp = t)) =
      (((prev.filter (notOnDay cal key)).filter (notOnDay cal key2)).filter
          (fun p => decide (p.timestamp = t))) ++
        (samples.filter (notOnDay cal key2)).filter (fun p => decide (p.timestamp = t)) := by
  rw [List.filter_comm, filter_replaceDay, List.filter_append, List.filter_comm,
    List.filter_comm (notOnDay cal key2) _ samples]

/-- C8, amended: for every series state, every key `K` and every batch `B` whose
samples all have a timestamp on the local calendar day `K`, applying the replace update
for `(K, B)` twice yields the same series as applying it once. -/
theorem replaceDay_idempotent (cal : LocalCalendar) (key : YMDParts) (samples prev : List Sample)
    (hday : ∀ p ∈ samples, dateToYMDParts cal p.timestamp = key) :
    replaceDay cal key samples (replaceDay cal key samples prev) =
      replaceDay cal key samples prev := by
  apply eq_of_sorted_of_filter_eq Sample.timestamp _ _ (sorted_replaceDay _ _ _ _)
    (sorted_replaceDay _ _ _ _)
  intro t
  rw [filter_replaceDay, filter_notOnDay_replaceDay, filter_replaceDay,
    filter_notOnDay_of_onDay cal key samples hday, List.filter_filter (notOnDay cal key)]
  simp

/-- C8, amended, on a concrete state: a series holding one sample of 15 November and
a batch of two samples of 14 November delivered for 14 November. -/
theorem replaceDay_idempotent_witness :
    replaceDay utcCalendar nov14 [⟨atNov14 9 30, 40⟩, ⟨atNov14 8 0, 25⟩]
        (replaceDay utcCalendar nov14 [⟨atNov14 9 30, 40⟩, ⟨atNov14 8 0, 25⟩]
          [⟨atNov15 7 0, 10⟩]) =
      replaceDay utcCalendar nov14 [⟨atNov14 9 30, 40⟩, ⟨atNov14 8 0, 25⟩] [⟨atNov15 7 0, 10⟩] :=
  replaceDay_idempotent utcCalendar nov14 [⟨atNov14 9 30, 40⟩, ⟨atNov14 8 0, 25⟩]
    [⟨atNov15 7 0, 10⟩] (by decide)

/-- C8 as stated fails: the batch delivered for 15 November holds a sample whose
timestamp is 14 November 22:13 in the local time zone; the first replace update gives a
series of one sample, the second one a series that holds the sample twice. -/
theorem replaceDay_not_idempotent :
    replaceDay utcCalendar nov15 [⟨atNov14 22 13, 40⟩] [] = [⟨atNov14 22 13, 40⟩] ∧
    replaceDay utcCalendar nov15 [⟨atNov14 22 13, 40⟩]
        (replaceDay utcCalendar nov15 [⟨atNov14 22 13, 40⟩] []) =
      [⟨atNov14 22 13, 40⟩, ⟨atNov14 22 13, 40⟩] ∧
    replaceDay utcCalendar nov15 [⟨atNov14 22 13, 40⟩]
        (replaceDay utcCalendar nov15 [⟨atNov14 22 13, 40⟩] []) ≠
      replaceDay utcCalendar nov15 [⟨atNov14 22 13, 40⟩] [] := by
  decide

/-- On every series reached from the empty series, an empty replacement for the day
`D`, whether it arrives as a missing snapshot (clear update) or as a snapshot without
samples (replace update with an empty batch), yields the previous series restricted to
the samples whose timestamp is not on `D`. -/
theorem empty_replacement_filters_dated (cal : LocalCalendar) (us : List DayUpdate)
    (key : YMDParts) :
    clearDay cal key (applyUpdates cal [] us) =
        (applyUpdates cal [] us).filter
          (fun p => decide (dateToYMDParts cal p.timestamp ≠ key)) ∧
    replaceDay cal key [] (applyUpdates cal [] us) =
        (applyUpdates cal [] us).filter
          (fun p => decide (dateToYMDParts cal p.timestamp ≠ key)) ∧
    (clearDay cal key (applyUpdates cal [] us)).Sublist (applyUpdates cal [] us) ∧
    (∀ p ∈ clearDay cal key (applyUpdates cal [] us), dateToYMDParts cal p.timestamp ≠ key) ∧
    (∀ p ∈ applyUpdates cal [] us, dateToYMDParts cal p.timestamp ≠ key →
      p ∈ clearDay cal key (applyUpdates cal [] us)) := by
  have hfun : notOnDay cal key = fun p => decide (dateToYMDParts cal p.timestamp ≠ key) := by
    funext p
    rw [notOnDay_eq]
    simp
  have hclear : clearDay cal key (applyUpdates cal [] us) =
      (applyUpdates cal [] us).filter
        (fun p => decide (dateToYMDParts cal p.timestamp ≠ key)) := by
    rw [clearDay, hfun]
  refine ⟨hclear, ?_, ?_, ?_, ?_⟩
  · rw [replaceDay_eq, List.append_nil, sortByTimestamp_of_sorted, hfun]
    exact List.Sorted.filter _ (sorted_applyUpdates cal us [] List.sorted_nil)
  · exact List.filter_sublist _
  · intro p hp
    rw [hclear, List.mem_filter] at hp
    simpa using hp.2
  · intro p hp hne
    rw [hclear, List.mem_filter]
    exact ⟨hp, by simpa using hne⟩

theorem filter_eq_nil_of_otherDay (cal : LocalCalendar) (key key2 : YMDParts)
    (l₁ l₂ : List Sample) (hne : key ≠ key2)
    (h₁ : ∀ p ∈ l₁, dateToYMDParts cal p.timestamp = key)
    (h₂ : ∀ p ∈ l₂, dateToYMDParts cal p.timestamp = key2) (t : Int) :
    l₁.filter (fun p => decide (p.timestamp = t)) = [] ∨
      l₂.filter (fun p => decide (p.timestamp = t)) = [] := by
  by_cases h : dateToYMDParts cal t = key
  · right
    rw [List.filter_eq_nil_iff]
    intro p hp hpt
    have e : p.timestamp = t := by simpa using hpt
    exact hne (h.symm.trans (e ▸ h₂ p hp))
  · left
    rw [List.filter_eq_nil_iff]
    intro p hp hpt
    have e : p.timestamp = t := by simpa using hpt
    exact h (e ▸ h₁ p hp)

/-- C10, amended: for every series state, every two distinct keys `K1` and `K2` and
every two batches `B1` and `B2` whose samples all have a timestamp on the local calendar
day of their own key, the replace updates for `(K1, B1)` and `(K2, B2)` commute. -/
theorem replaceDay_comm (cal : LocalCalendar) (key₁ key₂ : YMDParts)
    (samples₁ samples₂ prev : List Sample) (hne : key₁ ≠ key₂)
    (h₁ : ∀ p ∈ samples₁, dateToYMDParts cal p.timestamp = key₁)
    (h₂ : ∀ p ∈ samples₂, dateToYMDParts cal p.timestamp = key₂) :
    replaceDay cal key₂ samples₂ (replaceDay cal key₁ samples₁ prev) =
      replaceDay cal key₁ samples₁ (replaceDay cal key₂ samples₂ prev) := by
  apply eq_of_sorted_of_filter_eq Sample.timestamp _ _ (sorted_replaceDay _ _ _ _)
    (sorted_replaceDay _ _ _ _)
  intro t
  have e₁ : samples₁.filter (notOnDay cal key₂) = samples₁ :=
    filter_notOnDay_of_otherDay cal key₂ samples₁ (fun p hp => by rw [h₁ p hp]; exact hne)
  have e₂ : samples₂.filter (notOnDay cal key₁) = samples₂ :=
    filter_notOnDay_of_otherDay cal key₁ samples₂ (fun p hp => by rw [h₂ p hp]; exact hne.symm)
  rw [filter_replaceDay, filter_notOnDay_replaceDay, filter_replaceDay,
    filter_notOnDay_replaceDay, e₁, e₂, List.filter_comm (notOnDay cal key₂) (notOnDay cal key₁),
    List.append_assoc, List.append_assoc]
  congr 1
  rcases filter_eq_nil_of_otherDay cal key₁ key₂ samples₁ samples₂ hne h₁ h₂ t with h | h
  · rw [h]; simp
  · rw [h]; simp

/-- C10, amended, on a concrete state: batches of 14 and of 15 November, each
delivered for its own day, merged into a series that holds a stale sample of
14 November. -/
theorem replaceDay_comm_witness :
    replaceDay utcCalendar nov15 [⟨atNov15 6 0, 12⟩]
        (replaceDay utcCalendar nov14 [⟨atNov14 9 30, 40⟩, ⟨atNov14 8 0, 25⟩]
          [⟨atNov14 1 0, 5⟩]) =
      replaceDay utcCalendar nov14 [⟨atNov14 9 30, 40⟩, ⟨atNov14 8 0, 25⟩]
        (replaceDay utcCalendar nov15 [⟨atNov15 6 0, 12⟩] [⟨atNov14 1 0, 5⟩]) :=
  replaceDay_comm utcCalendar nov14 nov15 [⟨atNov14 9 30, 40⟩, ⟨atNov14 8 0, 25⟩]
    [⟨atNov15 6 0, 12⟩] [⟨atNov14 1 0, 5⟩] (by decide) (by decide) (by decide)

/-- C10 as stated fails: the batch delivered for 14 November holds a sample whose
timestamp is 15 November 02:00 in the local time zone. Applied first, the sample is
removed again by the replace update for 15 November; applied second, it stays. -/
theorem replaceDay_not_comm :
    replaceDay utcCalendar nov15 [⟨atNov15 6 0, 12⟩]
        (replaceDay utcCalendar nov14 [⟨atNov15 2 0, 40⟩] []) = [⟨atNov15 6 0, 12⟩] ∧
    replaceDay utcCalendar nov14 [⟨atNov15 2 0, 40⟩]
        (replaceDay utcCalendar nov15 [⟨atNov15 6 0, 12⟩] []) =
      [⟨atNov15 2 0, 40⟩, ⟨atNov15 6 0, 12⟩] ∧
    nov14 ≠ nov15 ∧
    replaceDay utcCalendar nov15 [⟨atNov15 6 0, 12⟩]
        (replaceDay utcCalendar nov14 [⟨atNov15 2 0, 40⟩] []) ≠
      replaceDay utcCalendar nov14 [⟨atNov15 2 0, 40⟩]
        (replaceDay utcCalendar nov15 [⟨atNov15 6 0, 12⟩] []) := by
  decide

/-! ## Refinement of the series store -/

theorem filter_notOnDay_flatten (cal : LocalCalendar) (key : YMDParts) (store : SeriesStore)
    (h : StoreOnOwnDay cal store) :
    (store.map (fun e => e.2)).flatten.filter (notOnDay cal key) =
      ((store.filter (fun e => !decide (e.1 = key))).map (fun e => e.2)).flatten := by
  induction store with
  | nil => rfl
  | cons e store ih =>
    have hrest : StoreOnOwnDay cal store := fun e' he' => h e' (List.mem_cons_of_mem _ he')
    have hhead : ∀ p ∈ e.2, dateToYMDParts cal p.timestamp = e.1 := h e (List.mem_cons_self _ _)
    rw [List.map_cons, List.flatten_cons, List.filter_append, ih hrest, List.filter_cons]
    by_cases hk : e.1 = key
    · subst hk
      rw [filter_notOnDay_of_onDay cal e.1 e.2 hhead]
      simp
    · rw [filter_notOnDay_of_otherDay cal key e.2 (fun p hp => by rw [hhead p hp]; exact hk)]
      simp [hk]

theorem storeOnOwnDay_applyPartition (cal : LocalCalendar) (key : YMDParts)
    (samples : List Sample) (store : SeriesStore) (h : StoreOnOwnDay cal store)
    (hday : ∀ p ∈ samples, dateToYMDParts cal p.timestamp = key) :
    StoreOnOwnDay cal (applyPartition key samples store) := by
  intro e he
  rw [applyPartition, List.mem_append] at he
  rcases he with he | he
  · exact h e (List.mem_filter.1 he).1
  · rw [List.mem_singleton] at he
    subst he
    exact hday

theorem nodup_applyPartition (key : YMDParts) (samples : List Sample) (store : SeriesStore)
    (h : (store.map (fun e => e.1)).Nodup) :
    ((applyPartition key samples store).map (fun e => e.1)).Nodup := by
  rw [applyPartition, List.map_append, List.map_singleton]
  apply List.Nodup.append (h.sublist ((List.filter_sublist _).map _)) (List.nodup_singleton _)
  intro k hk hk2
  rw [List.mem_singleton] at hk2
  subst hk2
  obtain ⟨e, he, rfl⟩ := List.mem_map.1 hk
  have := (List.mem_filter.1 he).2
  simp at this

theorem refines_replace (cal : LocalCalendar) (key : YMDParts) (samples series : List Sample)
    (store : SeriesStore) (h : Refines cal series store)
    (hday : ∀ p ∈ samples, dateToYMDParts cal p.timestamp = key) :
    Refines cal (replaceDay cal key samples series) (applyPartition key samples store) := by
  obtain ⟨_, hown, hnd, hf⟩ := h
  refine ⟨sorted_replaceDay _ _ _ _, storeOnOwnDay_applyPartition cal key samples store hown hday,
    nodup_applyPartition key samples store hnd, ?_⟩
  intro t
  rw [filter_replaceDay, List.filter_comm, hf t, List.filter_comm,
    filter_notOnDay_flatten cal key store hown, applyPartition, List.map_append,
    List.flatten_append, List.filter_append]
  simp

theorem refines_clear (cal : LocalCalendar) (key : YMDParts) (series : List Sample)
    (store : SeriesStore) (h : Refines cal series store) :
    Refines cal (clearDay cal key series) (clearPartition key store) := by
  obtain ⟨hs, hown, hnd, hf⟩ := h
  refine ⟨List.Sorted.filter _ hs,
    storeOnOwnDay_applyPartition cal key [] store hown (fun p hp => by cases hp),
    nodup_applyPartition key [] store hnd, ?_⟩
  intro t
  rw [clearDay, List.filter_comm, hf t, List.filter_comm,
    filter_notOnDay_flatten cal key store hown, clearPartition, applyPartition, List.map_append,
    List.flatten_append, List.filter_append]
  simp

theorem refines_applyUpdates (cal : LocalCalendar) (us : List DayUpdate) (series : List Sample)
    (store : SeriesStore) (h : Refines cal series store)
    (hday : ∀ u ∈ us, batchOnOwnDay cal u = true) :
    Refines cal (applyUpdates cal series us) (storeUpdates store us) := by
  induction us generalizing series store with
  | nil => exact h
  | cons u us ih =>
    apply ih _ _ _ (fun u' hu' => hday u' (List.mem_cons_of_mem _ hu'))
    have hu := hday u (List.mem_cons_self _ _)
    cases u with
    | clear key => exact refines_clear cal key series store h
    | replace key samples =>
      apply refines_replace cal key samples series store h
      intro p hp
      simpa using (List.all_eq_true.1 hu) p hp

/-- C6, amended: starting from the empty series and the empty store, after every
sequence of per-key replace and clear updates in which each batch holds only samples whose
timestamp falls on the local calendar day of the key it is delivered for, the series of
the page is exactly the time-sorted concatenation of the snapshots of the store, which
keeps for each key its most recent batch (the empty one for a cleared key) under one
entry; so every sample of the series belongs to the current snapshot of some key. -/
theorem series_refines_store (cal : LocalCalendar) (us : List DayUpdate)
    (hday : ∀ u ∈ us, batchOnOwnDay cal u = true) :
    applyUpdates cal [] us = snapshotSeries (storeUpdates [] us) ∧
    ((storeUpdates [] us).map (fun e => e.1)).Nodup ∧
    ∀ p ∈ applyUpdates cal [] us, ∃ e ∈ storeUpdates [] us, p ∈ e.2 := by
  have h0 : Refines cal [] [] := by
    refine ⟨List.sorted_nil, ?_, List.nodup_nil, fun t => rfl⟩
    intro e he
    cases he
  obtain ⟨hs, _, hnd, hf⟩ := refines_applyUpdates cal us [] [] h0 hday
  have heq : applyUpdates cal [] us = snapshotSeries (storeUpdates [] us) := by
    apply eq_of_sorted_of_filter_eq Sample.timestamp _ _ hs (sorted_sortByTimestamp _)
    intro t
    rw [filter_sortByTimestamp, hf t]
  refine ⟨heq, hnd, ?_⟩
  intro p hp
  have hp2 : p ∈ (applyUpdates cal [] us).filter (fun q => decide (q.timestamp = p.timestamp)) :=
    List.mem_filter.2 ⟨hp, by simp⟩
  rw [hf p.timestamp] at hp2
  obtain ⟨l, hl, hpl⟩ := List.mem_flatten.1 (List.mem_filter.1 hp2).1
  obtain ⟨e, he, rfl⟩ := List.mem_map.1 hl
  exact ⟨e, he, hpl⟩

/-- C6, amended, on a concrete sequence: a batch for 14 November, a batch for
15 November, a newer batch for 14 November, and the clearing of 15 November leave
exactly the newer batch of 14 November, in time order. -/
theorem series_refines_store_witness :
    applyUpdates utcCalendar []
        [.replace nov14 [⟨atNov14 9 30, 40⟩], .replace nov15 [⟨atNov15 6 0, 12⟩],
          .replace nov14 [⟨atNov14 10 0, 41⟩, ⟨atNov14 8 0, 25⟩], .clear nov15] =
      [⟨atNov14 8 0, 25⟩, ⟨atNov14 10 0, 41⟩] :=
  (series_refines_store utcCalendar
    [.replace nov14 [⟨atNov14 9 30, 40⟩], .replace nov15 [⟨atNov15 6 0, 12⟩],
      .replace nov14 [⟨atNov14 10 0, 41⟩, ⟨atNov14 8 0, 25⟩], .clear nov15]
    (by decide)).1.trans (by decide)

/-- C6 as stated fails: the snapshot delivered for 15 November holds a sample whose
timestamp is 14 November 22:13 in the local time zone; after 15 November is cleared
the store tracks no sample, while the series of the page still holds that sample. -/
theorem series_not_refines_store :
    applyUpdates utcCalendar [] [.replace nov15 [⟨atNov14 22 13, 40⟩], .clear nov15] =
      [⟨atNov14 22 13, 40⟩] ∧
    snapshotSeries (storeUpdates [] [.replace nov15 [⟨atNov14 22 13, 40⟩], .clear nov15]) = [] ∧
    applyUpdates utcCalendar [] [.replace nov15 [⟨atNov14 22 13, 40⟩], .clear nov15] ≠
      snapshotSeries (storeUpdates [] [.replace nov15 [⟨atNov14 22 13, 40⟩], .clear nov15]) := by
  decide

/-! ## `iterateDays` -/

theorem localDay_eq (tz t : Int) : localDay tz t = (t + tz) / 86400000 := by
  rw [localDay, localTime, msPerDay, floorDiv_eq_ediv _ (by decide)]

theorem setHoursZero_eq (tz t : Int) :
    setHoursZero tz t = (t + tz) / 86400000 * 86400000 - tz := by
  rw [setHoursZero, utcTime, localDay_eq, msPerDay]

theorem iterateDaysLoopIn_of_lt (zone : TimeZone) (endT cur : Int) (h : endT < cur) :
    iterateDaysLoopIn zone endT cur = [] := by
  rw [iterateDaysLoopIn, if_neg (by omega)]

theorem iterateDaysLoopIn_of_le (zone : TimeZone) (endT cur : Int) (h : cur ≤ endT) :
    iterateDaysLoopIn zone endT cur =
      cur :: iterateDaysLoopIn zone endT (setDateNextIn zone cur) := by
  rw [iterateDaysLoopIn, if_pos h]

/-- In a zone of fixed offset the two setters are the functions of the offset. -/
theorem setters_fixedOffset (tz t : Int) :
    setHoursZeroIn (fixedOffset tz) t = setHoursZero tz t ∧
    setDateNextIn (fixedOffset tz) t = setDateNext tz t :=
  ⟨rfl, rfl⟩

theorem iterateDays_unfold (tz startDate endDate : Int) :
    iterateDays tz startDate endDate =
      iterateDaysLoop tz (setHoursZero tz endDate) (setHoursZero tz startDate) := rfl

theorem iterateDaysLoop_of_lt (tz endT cur : Int) (h : endT < cur) :
    iterateDaysLoop tz endT cur = [] :=
  iterateDaysLoopIn_of_lt (fixedOffset tz) endT cur h

theorem iterateDaysLoop_of_le (tz endT cur : Int) (h : cur ≤ endT) :
    iterateDaysLoop tz endT cur = cur :: iterateDaysLoop tz endT (cur + 86400000) := by
  rw [iterateDaysLoop, iterateDaysLoopIn_of_le _ _ _ h, (setters_fixedOffset tz cur).2]
  simp only [setDateNext, utcTime, localTime, msPerDay]
  congr 2
  omega

/-- The loop started at the local midnight of day `d` with the local midnight of day
`d + n` as its bound pushes the local midnights of the days `d, ..., d + n`. -/
theorem iterateDaysLoop_eq (tz : Int) (n : Nat) (d de : Int) (h : de = d + n) :
    iterateDaysLoop tz (de * 86400000 - tz) (d * 86400000 - tz) =
      (List.range (n + 1)).map (fun (i : Nat) => (d + (i : Int)) * 86400000 - tz) := by
  induction n generalizing d with
  | zero =>
    have hd : de = d := by simpa using h
    subst hd
    rw [iterateDaysLoop_of_le _ _ _ (le_refl _), iterateDaysLoop_of_lt _ _ _ (by omega)]
    simp [List.range_succ]
  | succ n ih =>
    rw [iterateDaysLoop_of_le _ _ _ (by push_cast at h; omega)]
    have hnext : d * 86400000 - tz + 86400000 = (d + 1) * 86400000 - tz := by ring
    rw [hnext, ih (d + 1) (by push_cast at h; omega), List.range_succ_eq_map (n + 1),
      List.map_cons, List.map_map]
    congr 1
    · simp
    · apply List.map_congr_left
      intro i _
      simp only [Function.comp, Nat.succ_eq_add_one, Nat.cast_add, Nat.cast_one]
      ring

/-- Closed form of `iterateDays` when the day of the start is not after the day of the
end. -/
theorem iterateDays_eq (tz startDate endDate : Int)
    (h : (startDate + tz) / 86400000 ≤ (endDate + tz) / 86400000) :
    iterateDays tz startDate endDate =
      (List.range (((endDate + tz) / 86400000 - (startDate + tz) / 86400000).toNat + 1)).map
        (fun (i : Nat) => ((startDate + tz) / 86400000 + (i : Int)) * 86400000 - tz) := by
  rw [iterateDays_unfold, setHoursZero_eq, setHoursZero_eq]
  exact iterateDaysLoop_eq tz _ _ _ (by omega)

theorem iterateDays_of_lt (tz startDate endDate : Int)
    (h : (endDate + tz) / 86400000 < (startDate + tz) / 86400000) :
    iterateDays tz startDate endDate = [] := by
  rw [iterateDays_unfold, setHoursZero_eq, setHoursZero_eq]
  exact iterateDaysLoop_of_lt _ _ _ (by omega)

theorem localDay_midnight (tz d : Int) : localDay tz (d * 86400000 - tz) = d := by
  rw [localDay_eq]
  have : d * 86400000 - tz + tz = d * 86400000 := by ring
  rw [this]
  exact Int.mul_ediv_cancel d (by decide)

theorem getElem?_iterateDays (tz startDate endDate : Int)
    (h : localDay tz startDate ≤ localDay tz endDate) (i : Nat)
    (hi : i < (localDay tz endDate - localDay tz startDate).toNat + 1) :
    (iterateDays tz startDate endDate)[i]? =
      some ((localDay tz startDate + (i : Int)) * 86400000 - tz) := by
  rw [localDay_eq, localDay_eq] at h hi
  rw [iterateDays_eq tz startDate endDate h, List.getElem?_map, List.getElem?_range hi,
    localDay_eq]
  rfl

/-- In a time zone of fixed offset, for every range whose start day is not after its
end day, `iterateDays` returns the local midnights of the consecutive calendar days from
the day of the start to the day of the end: the length is the number of days between
them plus one, the first element is the midnight of the start's day, the last that of
the end's day, element `i` lies at local midnight on day `start + i`, each element is one
calendar day after its predecessor, and a range within one day gives exactly one
element. -/
theorem iterateDays_consecutive (tz startDate endDate : Int)
    (h : localDay tz startDate ≤ localDay tz endDate) :
    (iterateDays tz startDate endDate).length =
        (localDay tz endDate - localDay tz startDate).toNat + 1 ∧
    (iterateDays tz startDate endDate).head? = some (setHoursZero tz startDate) ∧
    (iterateDays tz startDate endDate).getLast? = some (setHoursZero tz endDate) ∧
    (∀ (i : Nat), i < (iterateDays tz startDate endDate).length →
      ∃ x, (iterateDays tz startDate endDate)[i]? = some x ∧
        localDay tz x = localDay tz startDate + (i : Int) ∧
        localTime tz x = localDay tz x * msPerDay) ∧
    (∀ (i : Nat) (x y : Int), (iterateDays tz startDate endDate)[i]? = some x →
      (iterateDays tz startDate endDate)[i + 1]? = some y →
      localDay tz y = localDay tz x + 1) ∧
    (localDay tz startDate = localDay tz endDate →
      iterateDays tz startDate endDate = [setHoursZero tz startDate]) := by
  have hlen : (iterateDays tz startDate endDate).length =
      (localDay tz endDate - localDay tz startDate).toNat + 1 := by
    have h' := h
    rw [localDay_eq, localDay_eq] at h'
    rw [iterateDays_eq tz startDate endDate h', List.length_map, List.length_range,
      localDay_eq, localDay_eq]
  have hget := getElem?_iterateDays tz startDate endDate h
  refine ⟨hlen, ?_, ?_, ?_, ?_, ?_⟩
  · rw [List.head?_eq_getElem?, hget 0 (by omega), setHoursZero, utcTime, msPerDay]
    simp
  · rw [List.getLast?_eq_getElem?, hlen, hget _ (by omega), setHoursZero, utcTime, msPerDay]
    congr 2
    have : ((localDay tz endDate - localDay tz startDate).toNat + 1 - 1 : Nat) =
        (localDay tz endDate - localDay tz startDate).toNat := by omega
    rw [this]
    have : (((localDay tz endDate - localDay tz startDate).toNat : Nat) : Int) =
        localDay tz endDate - localDay tz startDate := Int.toNat_of_nonneg (by omega)
    rw [this]
    ring
  · intro i hi
    rw [hlen] at hi
    refine ⟨_, hget i hi, localDay_midnight tz _, ?_⟩
    rw [localDay_midnight, localTime, msPerDay]
    ring
  · intro i x y hx hy
    have hi1 : i + 1 < (iterateDays tz startDate endDate).length := by
      by_contra hcon
      rw [List.getElem?_eq_none (by omega)] at hy
      cases hy
    rw [hlen] at hi1
    rw [hget i (by omega)] at hx
    rw [hget (i + 1) hi1] at hy
    cases hx
    cases hy
    rw [localDay_midnight, localDay_midnight]
    push_cast
    ring
  · intro heq
    apply List.ext_getElem?
    intro i
    by_cases hi : i = 0
    · subst hi
      rw [hget 0 (by omega), setHoursZero, utcTime, msPerDay]
      simp
    · have hlen1 : (iterateDays tz startDate endDate).length = 1 := by
        rw [hlen, heq]; simp
      rw [List.getElem?_eq_none (by omega), List.getElem?_eq_none (by simp; omega)]

/-- The range from 14 November 09:30 to 15 November 23:59 in the UTC time zone gives
the midnights of 14 and 15 November. -/
theorem iterateDays_consecutive_witness :
    (iterateDays 0 (atNov14 9 30) (atNov15 23 59)).length = 2 ∧
    (iterateDays 0 (atNov14 9 30) (atNov15 23 59)).head? = some (atNov14 0 0) ∧
    (iterateDays 0 (atNov14 9 30) (atNov15 23 59)).getLast? = some (atNov15 0 0) := by
  have h := iterateDays_consecutive 0 (atNov14 9 30) (atNov15 23 59) (by decide)
  exact ⟨h.1.trans (by decide), h.2.1.trans (by decide), h.2.2.1.trans (by decide)⟩

theorem effectDayList_eq (tz startDate endDate : Int) :
    effectDayList tz startDate endDate =
      iterateDays tz (startDate * 86400000 - tz) (endDate * 86400000 + 86399000 - tz) := rfl

theorem localDay_effect_start (tz startDate : Int) :
    localDay tz (startDate * 86400000 - tz) = startDate := localDay_midnight tz startDate

theorem localDay_effect_end (tz endDate : Int) :
    localDay tz (endDate * 86400000 + 86399000 - tz) = endDate := by
  rw [localDay_eq]
  omega

/-- C14: for every range whose start day is after its end day `iterateDays` returns
the empty list (it is a total function, no error is raised); so for state dates with
`startDate` after `endDate` the effect computes an empty `dayList` and attaches no
listener. -/
theorem iterateDays_start_after_end (cal : LocalCalendar) (tz startDate endDate : Int)
    (startDay endDay : Int) (st : PageState)
    (h : localDay tz endDate < localDay tz startDate) (hdays : endDay < startDay) :
    iterateDays tz startDate endDate = [] ∧
    effectDayList tz startDay endDay = [] ∧
    (historyEffect cal tz startDay endDay st).effects =
      st.effects ++ [{ isMounted := true, keys := [] }] := by
  have h1 : iterateDays tz startDate endDate = [] := by
    rw [localDay_eq, localDay_eq] at h
    exact iterateDays_of_lt tz startDate endDate h
  have h2 : effectDayList tz startDay endDay = [] := by
    rw [effectDayList_eq]
    apply iterateDays_of_lt
    have e1 := localDay_effect_start tz startDay
    have e2 := localDay_effect_end tz endDay
    rw [localDay_eq] at e1 e2
    rw [e1, e2]
    exact hdays
  refine ⟨h1, h2, ?_⟩
  rw [historyEffect]
  simp only [h2, List.map_nil]

/-- C14 on the range from 15 November back to 14 November in the UTC time zone. -/
theorem iterateDays_start_after_end_witness :
    iterateDays 0 (atNov15 8 0) (atNov14 20 0) = [] ∧
    effectDayList 0 19676 19675 = [] ∧
    (historyEffect utcCalendar 0 19676 19675 initialState).effects =
      [{ isMounted := true, keys := [] }] :=
  iterateDays_start_after_end utcCalendar 0 (atNov15 8 0) (atNov14 20 0) 19676 19675
    initialState (by decide) (by decide)

/-! ## The history subscription effect -/

theorem getElem?_effectCleanup (id i : Nat) (st : PageState) :
    (effectCleanup id st).effects[i]? =
      (st.effects[i]?).map (fun e => if i = id then { e with isMounted := false } else e) := by
  rw [effectCleanup]
  exact List.getElem?_mapIdx

theorem length_effectCleanup (id : Nat) (st : PageState) :
    (effectCleanup id st).effects.length = st.effects.length := by
  rw [effectCleanup]
  exact List.length_mapIdx

theorem flowHistoryRaw_effectCleanup (id : Nat) (st : PageState) :
    (effectCleanup id st).flowHistoryRaw = st.flowHistoryRaw := rfl

theorem effects_dayCallback (cal : LocalCalendar) (id : Nat) (u : DayUpdate) (st : PageState) :
    (dayCallback cal id u st).effects = st.effects := by
  rw [dayCallback]
  split
  · rfl
  · split
    · rfl
    · split <;> rfl

theorem cancelled_effectCleanup (n id : Nat) (st : PageState) (h : Cancelled n st) :
    Cancelled n (effectCleanup id st) := by
  intro i hi
  obtain ⟨e, he, hm⟩ := h i hi
  rw [getElem?_effectCleanup, he]
  by_cases hid : i = id
  · exact ⟨{ e with isMounted := false }, by simp only [Option.map_some', if_pos hid], rfl⟩
  · exact ⟨e, by simp only [Option.map_some', if_neg hid], hm⟩

theorem cancelled_historyEffect (cal : LocalCalendar) (tz startDate endDate : Int) (n : Nat)
    (st : PageState) (h : Cancelled n st) :
    Cancelled n (historyEffect cal tz startDate endDate st) := by
  intro i hi
  obtain ⟨e, he, hm⟩ := h i hi
  refine ⟨e, ?_, hm⟩
  have hlt : i < st.effects.length := by
    by_contra hcon
    rw [List.getElem?_eq_none (by omega)] at he
    cases he
  rw [historyEffect]
  simp only
  rw [List.getElem?_append_left hlt, he]

theorem cancelled_pageStep (cal : LocalCalendar) (tz : Int) (n : Nat) (st : PageState)
    (ev : PageEvent) (h : Cancelled n st) : Cancelled n (pageStep cal tz st ev) := by
  cases ev with
  | rangeChange startDate endDate =>
    exact cancelled_historyEffect cal tz startDate endDate n _ (cancelled_effectCleanup n _ st h)
  | unmount => exact cancelled_effectCleanup n _ st h
  | snapshot id u =>
    intro i hi
    rw [pageStep, effects_dayCallback]
    exact h i hi

theorem cancelled_pageRun (cal : LocalCalendar) (tz : Int) (n : Nat) (evs : List PageEvent)
    (st : PageState) (h : Cancelled n st) : Cancelled n (pageRun cal tz st evs) := by
  induction evs generalizing st with
  | nil => exact h
  | cons ev evs ih => exact ih _ (cancelled_pageStep cal tz n st ev h)

/-- The guard `if (!isMounted) return;` drops every snapshot that reaches a callback
of a cancelled effect run. -/
theorem dayCallback_of_cancelled (cal : LocalCalendar) (n id : Nat) (u : DayUpdate)
    (st : PageState) (h : Cancelled n st) (hid : id < n) : dayCallback cal id u st = st := by
  obtain ⟨e, he, hm⟩ := h id hid
  rw [dayCallback, he]
  simp [hm]

theorem cancelled_cleanupLast (st : PageState) (h : OnlyLastMounted st) :
    Cancelled st.effects.length (cleanupLast st) := by
  intro i hi
  rw [cleanupLast, getElem?_effectCleanup, List.getElem?_eq_getElem hi]
  by_cases hlast : i = st.effects.length - 1
  · exact ⟨{ st.effects[i] with isMounted := false },
      by simp only [Option.map_some', if_pos hlast], rfl⟩
  · obtain ⟨e, he, hm⟩ := h i (by omega)
    rw [List.getElem?_eq_getElem hi] at he
    cases he
    exact ⟨st.effects[i], by simp only [Option.map_some', if_neg hlast], hm⟩

theorem onlyLastMounted_pageStep (cal : LocalCalendar) (tz : Int) (st : PageState)
    (ev : PageEvent) (h : OnlyLastMounted st) : OnlyLastMounted (pageStep cal tz st ev) := by
  cases ev with
  | rangeChange startDate endDate =>
    have hc := cancelled_historyEffect cal tz startDate endDate _ _ (cancelled_cleanupLast st h)
    intro i hi
    apply hc i
    rw [pageStep, historyEffect] at hi
    simp only [List.length_append, List.length_singleton] at hi
    rw [cleanupLast, length_effectCleanup] at hi
    omega
  | unmount =>
    intro i hi
    rw [pageStep, cleanupLast, length_effectCleanup] at hi
    exact cancelled_cleanupLast st h i (by omega)
  | snapshot id u =>
    intro i hi
    rw [pageStep, effects_dayCallback] at hi ⊢
    exact h i hi

theorem onlyLastMounted_pageRun (cal : LocalCalendar) (tz : Int) (evs : List PageEvent)
    (st : PageState) (h : OnlyLastMounted st) : OnlyLastMounted (pageRun cal tz st evs) := by
  induction evs generalizing st with
  | nil => exact h
  | cons ev evs ih => exact ih _ (onlyLastMounted_pageStep cal tz st ev h)

theorem onlyLastMounted_initialState : OnlyLastMounted initialState := by
  intro i hi
  simp [initialState] at hi

/-- C12: once the cleanup of the effect has run, because the range changed or the
page was unmounted, every snapshot (missing, empty or not) that is still delivered to a
callback of an effect run started before that cleanup leaves the page state, and so the
merged series, unchanged, whatever happened before and whatever happens in between. -/
theorem cancelled_snapshot_dropped (cal : LocalCalendar) (tz : Int)
    (before after : List PageEvent) (cancel : PageEvent) (id : Nat) (u : DayUpdate)
    (hcancel : cancel = PageEvent.unmount ∨
      ∃ startDate endDate, cancel = PageEvent.rangeChange startDate endDate)
    (hid : id < (pageRun cal tz initialState before).effects.length) :
    dayCallback cal id u (pageRun cal tz initialState (before ++ cancel :: after)) =
      pageRun cal tz initialState (before ++ cancel :: after) := by
  have hinv := onlyLastMounted_pageRun cal tz before initialState onlyLastMounted_initialState
  have hc : Cancelled (pageRun cal tz initialState before).effects.length
      (pageStep cal tz (pageRun cal tz initialState before) cancel) := by
    rcases hcancel with rfl | ⟨a, b, rfl⟩
    · exact cancelled_cleanupLast _ hinv
    · exact cancelled_historyEffect cal tz a b _ _ (cancelled_cleanupLast _ hinv)
  have hrun : pageRun cal tz initialState (before ++ cancel :: after) =
      pageRun cal tz (pageStep cal tz (pageRun cal tz initialState before) cancel) after := by
    simp only [pageRun, List.foldl_append, List.foldl_cons]
  rw [hrun]
  exact dayCallback_of_cancelled cal _ id u _ (cancelled_pageRun cal tz _ after _ hc) hid

/-- C12 on a concrete trace: the page watches 14 November and holds one sample of
that day, the range changes to 14 and 15 November and a sample of 15 November arrives;
a snapshot of 14 November that then reaches the callback of the first effect run is
dropped. -/
theorem cancelled_snapshot_dropped_witness :
    dayCallback utcCalendar 0 (.replace nov14 [⟨atNov14 9 30, 40⟩])
        (pageRun utcCalendar 0 initialState
          ([.rangeChange 19675 19675, .snapshot 0 (.replace nov14 [⟨atNov14 8 0, 25⟩])] ++
            .rangeChange 19675 19676 :: [.snapshot 1 (.replace nov15 [⟨atNov15 6 0, 12⟩])])) =
      pageRun utcCalendar 0 initialState
        ([.rangeChange 19675 19675, .snapshot 0 (.replace nov14 [⟨atNov14 8 0, 25⟩])] ++
          .rangeChange 19675 19676 :: [.snapshot 1 (.replace nov15 [⟨atNov15 6 0, 12⟩])]) :=
  cancelled_snapshot_dropped utcCalendar 0
    [.rangeChange 19675 19675, .snapshot 0 (.replace nov14 [⟨atNov14 8 0, 25⟩])]
    [.snapshot 1 (.replace nov15 [⟨atNov15 6 0, 12⟩])]
    (.rangeChange 19675 19676) 0 (.replace nov14 [⟨atNov14 9 30, 40⟩])
    (Or.inr ⟨19675, 19676, rfl⟩)
    (by simp [pageRun, pageStep, historyEffect, effects_dayCallback])

theorem pageRun_append (cal : LocalCalendar) (tz : Int) (st : PageState)
    (evs₁ evs₂ : List PageEvent) :
    pageRun cal tz st (evs₁ ++ evs₂) = pageRun cal tz (pageRun cal tz st evs₁) evs₂ := by
  simp only [pageRun, List.foldl_append]

/-- Snapshots delivered to a mounted effect run apply, in arrival order, the updates
of the days it listens to; the effect runs stay as they are. -/
theorem pageRun_snapshots (cal : LocalCalendar) (tz : Int) (id : Nat) (e : EffectInstance)
    (us : List DayUpdate) (st : PageState) (he : st.effects[id]? = some e)
    (hm : e.isMounted = true) :
    pageRun cal tz st (us.map (PageEvent.snapshot id)) =
      { flowHistoryRaw :=
          applyUpdates cal st.flowHistoryRaw (us.filter (fun u => decide (u.key ∈ e.keys)))
        effects := st.effects } := by
  induction us generalizing st with
  | nil => rfl
  | cons u us ih =>
    have hstep : pageStep cal tz st (PageEvent.snapshot id u) =
        { flowHistoryRaw := if u.key ∈ e.keys then applyUpdate cal st.flowHistoryRaw u
            else st.flowHistoryRaw
          effects := st.effects } := by
      simp only [pageStep, dayCallback, he, hm]
      by_cases hk : u.key ∈ e.keys <;> simp [hk]
    rw [List.map_cons, pageRun, List.foldl_cons, hstep, ← pageRun,
      ih { flowHistoryRaw := if u.key ∈ e.keys then applyUpdate cal st.flowHistoryRaw u
            else st.flowHistoryRaw
           effects := st.effects } he]
    by_cases hk : u.key ∈ e.keys
    · simp [hk, List.filter_cons, applyUpdates]
    · simp [hk, List.filter_cons]

theorem effects_pageRun_snapshots (cal : LocalCalendar) (tz : Int) (id : Nat)
    (us : List DayUpdate) (st : PageState) :
    (pageRun cal tz st (us.map (PageEvent.snapshot id))).effects = st.effects := by
  induction us generalizing st with
  | nil => rfl
  | cons u us ih =>
    rw [List.map_cons, pageRun, List.foldl_cons, ← pageRun, ih, pageStep, effects_dayCallback]

/-- After the effect has run for a range, the snapshots delivered to the new effect
run build the series from the empty one, whatever the page held before. -/
theorem series_after_rangeChange (cal : LocalCalendar) (tz startDate endDate : Int)
    (us : List DayUpdate) (st : PageState) :
    (pageRun cal tz st
      (PageEvent.rangeChange startDate endDate ::
        us.map (PageEvent.snapshot st.effects.length))).flowHistoryRaw =
      applyUpdates cal [] (us.filter (fun u =>
        decide (u.key ∈ (effectDayList tz startDate endDate).map (dateToYMDParts cal)))) := by
  rw [pageRun, List.foldl_cons, ← pageRun]
  have he : (pageStep cal tz st (PageEvent.rangeChange startDate endDate)).effects[
      st.effects.length]? =
      some { isMounted := true
             keys := (effectDayList tz startDate endDate).map (dateToYMDParts cal) } := by
    simp only [pageStep, historyEffect]
    have hl : (cleanupLast st).effects.length = st.effects.length := length_effectCleanup _ st
    rw [← hl]
    exact List.getElem?_concat_length _ _
  rw [pageRun_snapshots cal tz _ _ us _ he rfl]
  rfl

theorem effectDayList_closed (tz startDate endDate : Int) (h : startDate ≤ endDate) :
    effectDayList tz startDate endDate =
      (List.range ((endDate - startDate).toNat + 1)).map
        (fun (i : Nat) => (startDate + (i : Int)) * 86400000 - tz) := by
  have e1 := localDay_effect_start tz startDate
  have e2 := localDay_effect_end tz endDate
  rw [localDay_eq] at e1 e2
  rw [effectDayList_eq, iterateDays_eq _ _ _ (by rw [e1, e2]; exact h), e1, e2]

/-- The days of a range are the days of an initial part followed by the days of the
adjacent rest. -/
theorem effectDayList_append (tz a b c : Int) (hab : a ≤ b) (hbc : b < c) :
    effectDayList tz a c = effectDayList tz a b ++ effectDayList tz (b + 1) c := by
  rw [effectDayList_closed tz a c (by omega), effectDayList_closed tz a b hab,
    effectDayList_closed tz (b + 1) c (by omega)]
  have hn : (c - a).toNat + 1 = ((b - a).toNat + 1) + ((c - (b + 1)).toNat + 1) := by omega
  rw [hn, List.range_add, List.map_append, List.map_map]
  congr 1
  apply List.map_congr_left
  intro i _
  simp only [Function.comp]
  have : (((b - a).toNat + 1 + i : Nat) : Int) = b - a + 1 + i := by
    push_cast
    rw [Int.toNat_of_nonneg (by omega)]
  rw [this]
  ring

/-- C11: let `R1` be the days `a .. b` and `R2` the adjacent, disjoint days
`b + 1 .. c`, so that the union is the range `a .. c`, whose day list is that of `R1`
followed by that of `R2`. If the page subscribes to `R1` (or to `R2`), receives any
batches, and the range is then widened to the union and the new listeners receive a
sequence of batches, the series is the same as after subscribing directly to the union
and receiving the same sequence. -/
theorem widen_range_eq_direct (cal : LocalCalendar) (tz a b c : Int)
    (received batches : List DayUpdate) (hab : a ≤ b) (hbc : b < c) :
    effectDayList tz a c = effectDayList tz a b ++ effectDayList tz (b + 1) c ∧
    (pageRun cal tz initialState
        ([PageEvent.rangeChange a b] ++ received.map (PageEvent.snapshot 0) ++
          PageEvent.rangeChange a c :: batches.map (PageEvent.snapshot 1))).flowHistoryRaw =
      (pageRun cal tz initialState
        (PageEvent.rangeChange a c :: batches.map (PageEvent.snapshot 0))).flowHistoryRaw ∧
    (pageRun cal tz initialState
        ([PageEvent.rangeChange (b + 1) c] ++ received.map (PageEvent.snapshot 0) ++
          PageEvent.rangeChange a c :: batches.map (PageEvent.snapshot 1))).flowHistoryRaw =
      (pageRun cal tz initialState
        (PageEvent.rangeChange a c :: batches.map (PageEvent.snapshot 0))).flowHistoryRaw := by
  have hdirect := series_after_rangeChange cal tz a c batches initialState
  have hlen : ∀ s e : Int, (pageRun cal tz initialState
      ([PageEvent.rangeChange s e] ++ received.map (PageEvent.snapshot 0))).effects.length = 1 := by
    intro s e
    rw [pageRun_append, effects_pageRun_snapshots]
    simp [pageRun, pageStep, historyEffect, cleanupLast, effectCleanup, initialState]
  have hwiden : ∀ s e : Int, (pageRun cal tz initialState
      ([PageEvent.rangeChange s e] ++ received.map (PageEvent.snapshot 0) ++
        PageEvent.rangeChange a c :: batches.map (PageEvent.snapshot 1))).flowHistoryRaw =
      (pageRun cal tz initialState
        (PageEvent.rangeChange a c :: batches.map (PageEvent.snapshot 0))).flowHistoryRaw := by
    intro s e
    have h := series_after_rangeChange cal tz a c batches
      (pageRun cal tz initialState
        ([PageEvent.rangeChange s e] ++ received.map (PageEvent.snapshot 0)))
    rw [hlen s e] at h
    rw [pageRun_append, h]
    exact hdirect.symm
  exact ⟨effectDayList_append tz a b c hab hbc, hwiden a b, hwiden (b + 1) c⟩

/-- C11 on a concrete trace in the UTC time zone: the page watches 14 November and
receives a batch, then the range is widened to 14 and 15 November and both days deliver
their batch; the series is the one obtained by watching both days from the start, the
two samples in time order. -/
theorem widen_range_eq_direct_witness :
    (pageRun utcCalendar 0 initialState
        ([PageEvent.rangeChange 19675 19675] ++
          [DayUpdate.replace nov14 [⟨atNov14 8 0, 25⟩]].map (PageEvent.snapshot 0) ++
          PageEvent.rangeChange 19675 19676 ::
            [DayUpdate.replace nov15 [⟨atNov15 6 0, 12⟩],
              DayUpdate.replace nov14 [⟨atNov14 8 0, 25⟩]].map
              (PageEvent.snapshot 1))).flowHistoryRaw =
      (pageRun utcCalendar 0 initialState
        (PageEvent.rangeChange 19675 19676 ::
          [DayUpdate.replace nov15 [⟨atNov15 6 0, 12⟩],
            DayUpdate.replace nov14 [⟨atNov14 8 0, 25⟩]].map
            (PageEvent.snapshot 0))).flowHistoryRaw ∧
    (pageRun utcCalendar 0 initialState
        (PageEvent.rangeChange 19675 19676 ::
          [DayUpdate.replace nov15 [⟨atNov15 6 0, 12⟩],
            DayUpdate.replace nov14 [⟨atNov14 8 0, 25⟩]].map
            (PageEvent.snapshot 0))).flowHistoryRaw =
      [⟨atNov14 8 0, 25⟩, ⟨atNov15 6 0, 12⟩] := by
  refine ⟨(widen_range_eq_direct utcCalendar 0 19675 19675 19676
    [DayUpdate.replace nov14 [⟨atNov14 8 0, 25⟩]]
    [DayUpdate.replace nov15 [⟨atNov15 6 0, 12⟩], DayUpdate.replace nov14 [⟨atNov14 8 0, 25⟩]]
    (by decide) (by decide)).2.1, ?_⟩
  have h := series_after_rangeChange utcCalendar 0 19675 19676
    [DayUpdate.replace nov15 [⟨atNov15 6 0, 12⟩], DayUpdate.replace nov14 [⟨atNov14 8 0, 25⟩]]
    initialState
  rw [effectDayList_closed 0 19675 19676 (by decide)] at h
  exact h.trans (by decide)

/-! ## Smoothing and the derived chart data -/

/-- The point that `movingAverage` computes at an index of the sequence. -/
theorem getElem?_movingAverage (data : List Point) (windowSize : Int) (i : Nat) :
    (movingAverage data windowSize)[i]? =
      (data[i]?).map (fun d =>
        ({ timestamp := d.timestamp
           value :=
            if (windowLoop (data.map (fun d => d.value))
                (max 0 ((i : Int) - floorDiv windowSize 2))
                (min ((data.length : Int) - 1) ((i : Int) + floorDiv windowSize 2))).2 ≠ 0 then
              (windowLoop (data.map (fun d => d.value))
                (max 0 ((i : Int) - floorDiv windowSize 2))
                (min ((data.length : Int) - 1) ((i : Int) + floorDiv windowSize 2))).1 /
              ((windowLoop (data.map (fun d => d.value))
                (max 0 ((i : Int) - floorDiv windowSize 2))
                (min ((data.length : Int) - 1) ((i : Int) + floorDiv windowSize 2))).2 : ℚ)
            else 0 } : Point)) := by
  rw [movingAverage, List.getElem?_mapIdx]

theorem windowLoop_empty (vals : List ℚ) (start endIdx : Int) (h : endIdx < start) :
    windowLoop vals start endIdx = (0, 0) := by
  have hn : (endIdx + 1 - start).toNat = 0 := by omega
  rw [windowLoop, hn]
  rfl

theorem windowLoop_single (vals : List ℚ) (i : Nat) (v : ℚ) (h : vals[i]? = some v) :
    windowLoop vals (i : Int) (i : Int) = (v, 1) := by
  have hn : ((i : Int) + 1 - (i : Int)).toNat = 1 := by omega
  rw [windowLoop, hn]
  simp [List.range_succ, List.getD_eq_getElem?_getD, h]

/-- A window size whose half rounds down to zero leaves the sequence as it is. -/
theorem movingAverage_of_half_zero (data : List Point) (windowSize : Int)
    (h : floorDiv windowSize 2 = 0) : movingAverage data windowSize = data := by
  apply List.ext_getElem?
  intro i
  rw [getElem?_movingAverage, h]
  cases hd : data[i]? with
  | none => rfl
  | some d =>
    have hi : i < data.length := by
      by_contra hcon
      rw [List.getElem?_eq_none (by omega)] at hd
      cases hd
    have hs : max 0 ((i : Int) - 0) = (i : Int) := by omega
    have he : min ((data.length : Int) - 1) ((i : Int) + 0) = (i : Int) := by omega
    have hv : (data.map (fun d => d.value))[i]? = some d.value := by
      rw [List.getElem?_map, hd]
      rfl
    rw [hs, he, windowLoop_single _ i d.value hv]
    simp

/-- A window size whose half rounds down below zero gives every point the value 0. -/
theorem movingAverage_of_half_neg (data : List Point) (windowSize : Int)
    (h : floorDiv windowSize 2 < 0) :
    movingAverage data windowSize =
      data.map (fun d => ({ timestamp := d.timestamp, value := 0 } : Point)) := by
  apply List.ext_getElem?
  intro i
  rw [getElem?_movingAverage, List.getElem?_map]
  cases hd : data[i]? with
  | none => rfl
  | some d =>
    rw [windowLoop_empty _ _ _ (by omega)]
    simp

/-- C15: for every point sequence and every window size (in particular every window
size of at least 1), `movingAverage` returns a sequence of the same length whose `i`-th
timestamp is the `i`-th input timestamp. -/
theorem movingAverage_length_timestamps (data : List Point) (windowSize : Int) :
    (movingAverage data windowSize).length = data.length ∧
    (movingAverage data windowSize).map (fun p => p.timestamp) =
      data.map (fun p => p.timestamp) ∧
    ∀ i : Nat, ((movingAverage data windowSize)[i]?).map (fun p => p.timestamp) =
      (data[i]?).map (fun p => p.timestamp) := by
  have hget : ∀ i : Nat, ((movingAverage data windowSize)[i]?).map (fun p => p.timestamp) =
      (data[i]?).map (fun p => p.timestamp) := by
    intro i
    rw [getElem?_movingAverage]
    cases data[i]? <;> rfl
  refine ⟨?_, ?_, hget⟩
  · rw [movingAverage]
    exact List.length_mapIdx
  · apply List.ext_getElem?
    intro i
    rw [List.getElem?_map, List.getElem?_map]
    exact hget i

/-- C16: with window size 1 `movingAverage` is the identity: every output point has
the timestamp and the value of the input point at its index. -/
theorem movingAverage_one (data : List Point) : movingAverage data 1 = data :=
  movingAverage_of_half_zero data 1 (by decide)

/-- C17, amended: a non-positive window size is not clamped, and the smoothing step
does not fail on it. For every point sequence and every whole window size `w ≤ 0`: when
`w ≤ -1` the output has the timestamps of the input and every value is 0; when `w = 0`
arrives as the text of the Window field the output is the same as with window size 1,
and when it arrives as the number 0 it is replaced by the default 3. -/
theorem smoothingStep_nonpositive (agg : List Point) (w : Int) (hw : w ≤ 0) :
    smoothingStep true (MaWindow.text (some w)) agg =
      (if w = 0 then smoothingStep true (MaWindow.text (some 1)) agg
       else agg.map (fun d => ({ timestamp := d.timestamp, value := 0 } : Point))) ∧
    smoothingStep true (MaWindow.number w) agg =
      (if w = 0 then movingAverage agg 3
       else agg.map (fun d => ({ timestamp := d.timestamp, value := 0 } : Point))) := by
  by_cases h0 : w = 0
  · subst h0
    constructor
    · show movingAverage agg 0 = movingAverage agg 1
      rw [movingAverage_of_half_zero agg 0 (by decide),
        movingAverage_of_half_zero agg 1 (by decide)]
    · rfl
  · have hneg : floorDiv w 2 < 0 := by
      rw [floorDiv_eq_ediv _ (by decide)]
      omega
    simp only [smoothingStep, windowNumber, if_true, if_neg h0]
    exact ⟨movingAverage_of_half_neg agg w hneg, movingAverage_of_half_neg agg w hneg⟩

/-- C17, amended, at the window size -2 on three points. -/
theorem smoothingStep_nonpositive_witness :
    smoothingStep true (MaWindow.text (some (-2))) [⟨10, 1⟩, ⟨20, 2⟩, ⟨30, 3⟩] =
      [⟨10, 0⟩, ⟨20, 0⟩, ⟨30, 0⟩] :=
  (smoothingStep_nonpositive [⟨10, 1⟩, ⟨20, 2⟩, ⟨30, 3⟩] (-2) (by decide)).1

/-- C17 as stated fails: with the window size -2 the smoothing step turns the values
1, 2, 3 into 0, 0, 0, while with window size 1 it returns them unchanged. -/
theorem smoothingStep_not_clamped :
    smoothingStep true (MaWindow.text (some (-2))) [⟨10, 1⟩, ⟨20, 2⟩, ⟨30, 3⟩] =
      [⟨10, 0⟩, ⟨20, 0⟩, ⟨30, 0⟩] ∧
    smoothingStep true (MaWindow.text (some 1)) [⟨10, 1⟩, ⟨20, 2⟩, ⟨30, 3⟩] =
      [⟨10, 1⟩, ⟨20, 2⟩, ⟨30, 3⟩] ∧
    smoothingStep true (MaWindow.text (some (-2))) [⟨10, 1⟩, ⟨20, 2⟩, ⟨30, 3⟩] ≠
      smoothingStep true (MaWindow.text (some 1)) [⟨10, 1⟩, ⟨20, 2⟩, ⟨30, 3⟩] := by
  have h1 : smoothingStep true (MaWindow.text (some (-2))) [⟨10, 1⟩, ⟨20, 2⟩, ⟨30, 3⟩] =
      [⟨10, 0⟩, ⟨20, 0⟩, ⟨30, 0⟩] :=
    movingAverage_of_half_neg [⟨10, 1⟩, ⟨20, 2⟩, ⟨30, 3⟩] (-2) (by decide)
  have h2 : smoothingStep true (MaWindow.text (some 1)) [⟨10, 1⟩, ⟨20, 2⟩, ⟨30, 3⟩] =
      [⟨10, 1⟩, ⟨20, 2⟩, ⟨30, 3⟩] :=
    movingAverage_of_half_zero [⟨10, 1⟩, ⟨20, 2⟩, ⟨30, 3⟩] 1 (by decide)
  refine ⟨h1, h2, ?_⟩
  rw [h1, h2]
  decide

theorem sorted_pageStep (cal : LocalCalendar) (tz : Int) (st : PageState) (ev : PageEvent)
    (h : st.flowHistoryRaw.Sorted (fun a b => a.timestamp ≤ b.timestamp)) :
    (pageStep cal tz st ev).flowHistoryRaw.Sorted (fun a b => a.timestamp ≤ b.timestamp) := by
  cases ev with
  | rangeChange startDate endDate => exact List.sorted_nil
  | unmount => exact h
  | snapshot id u =>
    rw [pageStep, dayCallback]
    split
    · exact h
    · split
      · exact h
      · split
        · exact sorted_applyUpdate cal _ u h
        · exact h

theorem sorted_pageRun (cal : LocalCalendar) (tz : Int) (evs : List PageEvent) (st : PageState)
    (h : st.flowHistoryRaw.Sorted (fun a b => a.timestamp ≤ b.timestamp)) :
    (pageRun cal tz st evs).flowHistoryRaw.Sorted (fun a b => a.timestamp ≤ b.timestamp) := by
  induction evs generalizing st with
  | nil => exact h
  | cons ev evs ih => exact ih _ (sorted_pageStep cal tz st ev h)

theorem clearDay_eq_replaceDay_nil_of_sorted (cal : LocalCalendar) (key : YMDParts)
    (series : List Sample) (h : series.Sorted (fun a b => a.timestamp ≤ b.timestamp)) :
    clearDay cal key series = replaceDay cal key [] series := by
  rw [replaceDay_eq, List.append_nil, sortByTimestamp_of_sorted]
  · rfl
  · exact List.Sorted.filter _ h

/-- C18: on every series reached from the empty series, by a sequence of per-day
updates or by any sequence of page events, and for every key, the clear update (snapshot
missing) yields the same series as the replace update with an empty sample list. -/
theorem clearDay_eq_replaceDay_nil (cal : LocalCalendar) (tz : Int) (us : List DayUpdate)
    (evs : List PageEvent) (key : YMDParts) :
    clearDay cal key (applyUpdates cal [] us) =
        replaceDay cal key [] (applyUpdates cal [] us) ∧
    clearDay cal key (pageRun cal tz initialState evs).flowHistoryRaw =
        replaceDay cal key [] (pageRun cal tz initialState evs).flowHistoryRaw :=
  ⟨clearDay_eq_replaceDay_nil_of_sorted cal key _ (sorted_applyUpdates cal us [] List.sorted_nil),
    clearDay_eq_replaceDay_nil_of_sorted cal key _
      (sorted_pageRun cal tz evs initialState List.sorted_nil)⟩

theorem movingAverage_nil (windowSize : Int) : movingAverage [] windowSize = [] := rfl

theorem smoothingStep_nil (movingAvg : Bool) (maWindow : MaWindow) :
    smoothingStep movingAvg maWindow [] = [] := by
  cases movingAvg <;> rfl

/-- C19: on an empty or missing sample series `aggregateSamples` returns the empty
list for every mode and bucket width, and for the empty series the memo `aggregated` has
empty `labels`, `dataPoints` and `points` for every aggregation mode and every smoothing
setting. -/
theorem empty_series_empty_output (fmt : LocaleFormat) (mode : Mode) (bucketMinutes : Int)
    (aggregationMode : String) (movingAvg : Bool) (maWindow : MaWindow) :
    aggregateSamples [] mode bucketMinutes = [] ∧
    aggregateSamplesOpt none mode bucketMinutes = [] ∧
    aggregateSamplesOpt (some []) mode bucketMinutes = [] ∧
    aggregated fmt [] aggregationMode movingAvg maWindow =
      { labels := [], dataPoints := [], points := [] } := by
  refine ⟨rfl, rfl, rfl, ?_⟩
  simp only [aggregated, aggregateSamples, smoothingStep_nil, List.map_nil]

/-- C20: for every sample series, aggregation mode and smoothing setting, `labels` and
`dataPoints` have one entry per point of `points` (the possibly smoothed sequence), in
the order of the points: entry `i` of `dataPoints` is the value of point `i` and entry
`i` of `labels` is the label of the timestamp of point `i`. -/
theorem chart_projection_parallel (fmt : LocaleFormat) (flowHistoryRaw : List Sample)
    (aggregationMode : String) (movingAvg : Bool) (maWindow : MaWindow) :
    (aggregated fmt flowHistoryRaw aggregationMode movingAvg maWindow).points =
        smoothingStep movingAvg maWindow
          (aggregateSamples flowHistoryRaw (bucketSetting aggregationMode).1
            (bucketSetting aggregationMode).2) ∧
    (aggregated fmt flowHistoryRaw aggregationMode movingAvg maWindow).labels.length =
        (aggregated fmt flowHistoryRaw aggregationMode movingAvg maWindow).points.length ∧
    (aggregated fmt flowHistoryRaw aggregationMode movingAvg maWindow).dataPoints.length =
        (aggregated fmt flowHistoryRaw aggregationMode movingAvg maWindow).points.length ∧
    ∀ i : Nat,
      (aggregated fmt flowHistoryRaw aggregationMode movingAvg maWindow).dataPoints[i]? =
          ((aggregated fmt flowHistoryRaw aggregationMode movingAvg maWindow).points[i]?).map
            (fun p => p.value) ∧
      (aggregated fmt flowHistoryRaw aggregationMode movingAvg maWindow).labels[i]? =
          ((aggregated fmt flowHistoryRaw aggregationMode movingAvg maWindow).points[i]?).map
            (fun p => chartLabel fmt aggregationMode p.timestamp) := by
  have hmode : (if (bucketSetting aggregationMode).1 = Mode.raw then Mode.raw else Mode.bucket) =
      (bucketSetting aggregationMode).1 := by
    cases (bucketSetting aggregationMode).1 <;> rfl
  refine ⟨?_, ?_, ?_, ?_⟩
  · simp only [aggregated, hmode]
  · simp only [aggregated, List.length_map]
  · simp only [aggregated, List.length_map]
  · intro i
    simp only [aggregated, List.getElem?_map, and_self]

/-! ## The export rows -/

theorem foldl_push_eq {α β : Type} (f : α → β) (l : List α) (init : List β) :
    l.foldl (fun rows p => rows ++ [f p]) init = init ++ l.map f := by
  induction l generalizing init with
  | nil => simp
  | cons a l ih => rw [List.foldl_cons, ih, List.map_cons, List.append_assoc]; rfl

/-- C21: the rows of the export are the header row `["timestamp", "value"]` followed
by one row per aggregated point, in the order of the points, holding the timestamp and
the value of the point as they are; so `n` points give `n + 1` rows. -/
theorem exportRows_header_and_points (points : List Point) :
    exportRows points =
      [Cell.text "timestamp", Cell.text "value"] ::
        points.map (fun p => [Cell.time p.timestamp, Cell.number p.value]) ∧
    (exportRows points).length = points.length + 1 ∧
    (exportRows points)[0]? = some [Cell.text "timestamp", Cell.text "value"] ∧
    ∀ (i : Nat) (p : Point), points[i]? = some p →
      (exportRows points)[i + 1]? = some [Cell.time p.timestamp, Cell.number p.value] := by
  have h : exportRows points =
      [Cell.text "timestamp", Cell.text "value"] ::
        points.map (fun p => [Cell.time p.timestamp, Cell.number p.value]) := by
    rw [exportRows, foldl_push_eq (fun p : Point => [Cell.time p.timestamp, Cell.number p.value])]
    rfl
  refine ⟨h, ?_, ?_, ?_⟩
  · rw [h, List.length_cons, List.length_map]
  · rw [h, List.getElem?_cons_zero]
  · intro i p hp
    rw [h, List.getElem?_cons_succ, List.getElem?_map, hp]
    rfl

/-! ## The preset effect -/

theorem isoDateOnly_setDateShift (tz now k : Int) :
    isoDateOnly (setDateShift tz now k) = isoDateOnly now + k := by
  simp only [isoDateOnly, setDateShift, utcTime, localTime, msPerDay,
    floorDiv_eq_ediv _ (by decide : (0 : Int) < 86400000)]
  omega

/-- The presets `today`, `yesterday` and `last7` count from the calendar day of the
current instant in UTC. -/
theorem presetEffect_presets (tz now startDate endDate : Int) :
    presetEffect tz now "today" startDate endDate = (isoDateOnly now, isoDateOnly now) ∧
    presetEffect tz now "yesterday" startDate endDate =
      (isoDateOnly now - 1, isoDateOnly now - 1) ∧
    presetEffect tz now "last7" startDate endDate = (isoDateOnly now - 6, isoDateOnly now) := by
  refine ⟨rfl, ?_, ?_⟩
  · have h := isoDateOnly_setDateShift tz now (-1)
    show (isoDateOnly (setDateShift tz now (-1)), isoDateOnly (setDateShift tz now (-1))) = _
    rw [h]
    rfl
  · have h := isoDateOnly_setDateShift tz now (-6)
    show (isoDateOnly (setDateShift tz now (-6)), isoDateOnly now) = _
    rw [h]
    rfl

/-- The preset `custom` keeps the dates when the local time zone is not ahead of UTC
and moves both one day back when it is ahead. -/
theorem presetEffect_custom (tz now startDate endDate : Int) :
    (-86400000 < tz → tz ≤ 0 →
      presetEffect tz now "custom" startDate endDate = (startDate, endDate)) ∧
    (0 < tz → tz ≤ 86400000 →
      presetEffect tz now "custom" startDate endDate = (startDate - 1, endDate - 1)) := by
  have hdef : presetEffect tz now "custom" startDate endDate =
      ((startDate * 86400000 - tz) / 86400000, (endDate * 86400000 - tz) / 86400000) := by
    show (isoDateOnly (utcTime tz (startDate * msPerDay)),
      isoDateOnly (utcTime tz (endDate * msPerDay))) = _
    simp only [isoDateOnly, utcTime, msPerDay,
      floorDiv_eq_ediv _ (by decide : (0 : Int) < 86400000)]
  constructor
  · intro h1 h2
    rw [hdef]
    congr 1 <;> omega
  · intro h1 h2
    rw [hdef]
    congr 1 <;> omega

/-- C22, evaluated where the code departs from it: in a browser whose time zone is
five and a half hours ahead of UTC, with both dates set to 15 November 2023 (day
19676), the preset `custom` sets both dates to 14 November 2023 (day 19675); and at
02:00 local time on 15 November the preset `today` gives 14 November. -/
theorem presetEffect_custom_moves_dates :
    civilFromDays 19676 = (2023, 11, 15) ∧ civilFromDays 19675 = (2023, 11, 14) ∧
    presetEffect 19800000 (atNov15 4 0) "custom" 19676 19676 = (19675, 19675) ∧
    localDay 19800000 (atNov14 20 30) = 19676 ∧
    presetEffect 19800000 (atNov14 20 30) "today" 19676 19676 = (19675, 19675) := by
  decide

/-! ## The free devices -/

/-- The devices that the filter keeps: those whose `patientId` is missing, `null`,
`false`, the number 0, the empty string or the number -1. -/
theorem isFree_iff (d : Device) :
    isFree d = true ↔
      d.patientId = none ∨ d.patientId = some Node.null ∨
      d.patientId = some (Node.bool false) ∨ d.patientId = some (Node.number 0) ∨
      d.patientId = some (Node.string "") ∨ d.patientId = some (Node.number (-1)) := by
  obtain ⟨id, pid⟩ := d
  cases pid with
  | none => simp [isFree, truthy]
  | some v =>
    cases v with
    | null => simp [isFree, truthy]
    | bool b => cases b <;> simp [isFree, truthy, strictEqString, strictEqNumber]
    | number x =>
      by_cases h0 : x = 0
      · simp [isFree, truthy, strictEqString, strictEqNumber, h0]
      · by_cases h1 : x = -1
        · simp [isFree, truthy, strictEqString, strictEqNumber, h1]
        · simp [isFree, truthy, strictEqString, strictEqNumber, h0, h1]
    | string s =>
      by_cases hs : s = ""
      · simp [isFree, truthy, strictEqString, strictEqNumber, hs]
      · simp [isFree, truthy, strictEqString, strictEqNumber, hs]
    | object fields => simp [isFree, truthy, strictEqString, strictEqNumber]

/-- C23, evaluated where the code departs from it: a device as `handleCreate` writes
it, with `patientId: "-1"`, is not kept by the filter, since the filter compares with
the number -1; the same device with the number -1 is kept. -/
theorem availableDevices_excludes_created :
    (availableDevices [("-Nabc123", createdDevice "-Nabc123")]).length = 0 ∧
    isFree { id := Node.string "-Nabc123", patientId := some (Node.string "-1") } = false ∧
    isFree { id := Node.string "-Nabc123", patientId := some (Node.number (-1)) } = true := by
  refine ⟨by decide, by decide, ?_⟩
  rw [isFree_iff]
  simp

/-! ## `gatherFromNode` -/

theorem gatherValues_eq_flatten (l : List (String × Node)) :
    gatherValues l = (l.map (fun kv => gatherFromNode kv.2)).flatten := by
  induction l with
  | nil => simp [gatherValues]
  | cons kv rest ih =>
    obtain ⟨k, c⟩ := kv
    rw [gatherValues, ih, List.map_cons, List.flatten_cons]
    rfl

theorem gather_object_of_sampleShaped (fields : List (String × Node))
    (h : sampleShaped fields = true) : gather (Node.object fields) = [sampleEntry fields] := by
  rw [gather]
  cases hts : prop fields "ts" with
  | none => simp [sampleShaped, hts] at h
  | some ts =>
    have ht : truthy ts = true := by
      simp only [sampleShaped, hts, Bool.and_eq_true] at h
      exact h.1
    cases hv : prop fields "volume_ml" with
    | some v => simp [sampleEntry, hts, hv, ht]
    | none =>
      cases hf : prop fields "flowRate" with
      | some f => simp [sampleEntry, hts, hv, hf, ht]
      | none => simp [sampleShaped, hts, hv, hf] at h

theorem gather_object_of_not_sampleShaped (fields : List (String × Node))
    (h : sampleShaped fields = false) : gather (Node.object fields) = gatherValues fields := by
  rw [gather]
  cases hts : prop fields "ts" with
  | none => rfl
  | some ts =>
    cases hv : prop fields "volume_ml" with
    | some v =>
      have ht : truthy ts = false := by simpa [sampleShaped, hts, hv] using h
      simp [ht]
    | none =>
      cases hf : prop fields "flowRate" with
      | some f =>
        have ht : truthy ts = false := by simpa [sampleShaped, hts, hv, hf] using h
        simp [ht]
      | none => rfl

mutual
/-- What `gather` pushes for a value: the records of its outermost sample-shaped
objects, in traversal order. -/
theorem gather_eq_outermost : ∀ n : Node, gather n = (outermostSamples n).map sampleEntry
  | .null => by simp [gather, outermostSamples]
  | .bool _ => by simp [gather, outermostSamples]
  | .number _ => by simp [gather, outermostSamples]
  | .string _ => by simp [gather, outermostSamples]
  | .object fields => by
    have ih := gatherValues_eq_outermost fields
    by_cases h : sampleShaped fields = true
    · rw [gather_object_of_sampleShaped fields h, outermostSamples, if_pos h]
      rfl
    · have h' : sampleShaped fields = false := by simpa using h
      rw [gather_object_of_not_sampleShaped fields h', outermostSamples, if_neg h, ih]
/-- The same for the values of an object. -/
theorem gatherValues_eq_outermost : ∀ l : List (String × Node),
    gatherValues l = (outermostSamplesIn l).map sampleEntry
  | [] => by simp [gatherValues, outermostSamplesIn]
  | (_, c) :: rest => by
    rw [gatherValues, outermostSamplesIn, List.map_append, gather_eq_outermost c,
      gatherValues_eq_outermost rest]
end

/-- C25: `gatherFromNode` is a total function (the recursion over a finite nested
value terminates) and returns, in traversal order, one record for each sample-shaped
object that is reachable without passing through another sample-shaped object, the
record holding `ts` as timestamp and `volume_ml`, or `flowRate` when `volume_ml` is not
defined, as flow rate. Values that are not objects give nothing, a sample-shaped object
gives exactly its own record, and any other object gives what its values give, in
order. -/
theorem gatherFromNode_outermost (node : Node) (fields : List (String × Node)) :
    gatherFromNode node = (outermostSamples node).map sampleEntry ∧
    gatherFromNode Node.null = [] ∧
    (∀ b, gatherFromNode (Node.bool b) = []) ∧
    (∀ x, gatherFromNode (Node.number x) = []) ∧
    (∀ s, gatherFromNode (Node.string s) = []) ∧
    (sampleShaped fields = true →
      gatherFromNode (Node.object fields) = [sampleEntry fields]) ∧
    (sampleShaped fields = false →
      gatherFromNode (Node.object fields) =
        (fields.map (fun kv => gatherFromNode kv.2)).flatten) ∧
    (∀ ts, prop fields "ts" = some ts → (sampleEntry fields).timestamp = ts) ∧
    (∀ v, prop fields "volume_ml" = some v → (sampleEntry fields).flowRate = v) ∧
    (∀ f, prop fields "volume_ml" = none → prop fields "flowRate" = some f →
      (sampleEntry fields).flowRate = f) := by
  refine ⟨gather_eq_outermost node, rfl, fun _ => rfl, fun _ => rfl, fun _ => rfl,
    gather_object_of_sampleShaped fields, ?_, ?_, ?_, ?_⟩
  · intro h
    rw [gatherFromNode, gather_object_of_not_sampleShaped fields h, gatherValues_eq_flatten]
  · intro ts h
    simp [sampleEntry, h]
  · intro v h
    simp [sampleEntry, h]
  · intro f hv hf
    simp [sampleEntry, hv, hf]

/-- C25 on a day snapshot that holds a sample with `volume_ml` under a push key, a
string, and under an hour node a sample with `flowRate` that itself nests a
sample-shaped object: two records, the nested object is not visited. -/
theorem gatherFromNode_outermost_witness :
    gatherFromNode
        (Node.object
          [("-k1", Node.object [("ts", Node.number 1699954200000), ("volume_ml", Node.number 40)]),
            ("note", Node.string "x"),
            ("h09", Node.object
              [("a", Node.object
                [("ts", Node.string "2023-11-14T09:45:00Z"), ("flowRate", Node.number 12),
                  ("inner", Node.object
                    [("ts", Node.number 5), ("volume_ml", Node.number 1)])])])]) =
      [{ timestamp := Node.number 1699954200000, flowRate := Node.number 40 },
        { timestamp := Node.string "2023-11-14T09:45:00Z", flowRate := Node.number 12 }] :=
  (gatherFromNode_outermost
    (Node.object
      [("-k1", Node.object [("ts", Node.number 1699954200000), ("volume_ml", Node.number 40)]),
        ("note", Node.string "x"),
        ("h09", Node.object
          [("a", Node.object
            [("ts", Node.string "2023-11-14T09:45:00Z"), ("flowRate", Node.number 12),
              ("inner", Node.object
                [("ts", Node.number 5), ("volume_ml", Node.number 1)])])])]) []).1.trans rfl

/-! ## Bucketing loses no sample -/

theorem bucketCount_foldl (mn w : Int) (hw : 0 < w) (samples : List Sample) (i : Int) :
    bucketCount (((samples.map toTV).foldl (addToBucket mn w) (fun _ => none)) i) =
      (samples.filter (fun s => decide ((s.timestamp - mn) / w = i))).length := by
  rw [foldl_addToBucket]
  have hf : (samples.map toTV).filter (fun p => decide (floorDiv (p.t - mn) w = i)) =
      (samples.filter (fun s => decide ((s.timestamp - mn) / w = i))).map toTV := by
    rw [List.filter_map]
    congr 1
    apply List.filter_congr
    intro s _
    simp [toTV, floorDiv_eq_ediv _ hw]
  rw [hf]
  by_cases h : samples.filter (fun s => decide ((s.timestamp - mn) / w = i)) = []
  · simp [h, bucketCount]
  · have h2 : (samples.filter (fun s => decide ((s.timestamp - mn) / w = i))).map toTV ≠ [] := by
      simpa using h
    rw [if_neg h2]
    simp [bucketCount]

/-- Summing a quantity over the samples of every index below `n` gives the sum over
all samples, when every sample has an index from 0 to `n - 1`. -/
theorem sum_over_indices {M : Type} [AddCommMonoid M] (f : Sample → Int) (g : Sample → M)
    (n : Nat) (samples : List Sample) (h : ∀ s ∈ samples, 0 ≤ f s ∧ f s < (n : Int)) :
    Finset.sum (Finset.range n)
        (fun i => ((samples.filter (fun s => decide (f s = (i : Int)))).map g).sum) =
      (samples.map g).sum := by
  induction samples with
  | nil => simp
  | cons x l ih =>
    have hx := h x (List.mem_cons_self _ _)
    have hl : ∀ s ∈ l, 0 ≤ f s ∧ f s < (n : Int) := fun s hs => h s (List.mem_cons_of_mem _ hs)
    have hstep : ∀ i : Nat,
        (((x :: l).filter (fun s => decide (f s = (i : Int)))).map g).sum =
          (if (f x).toNat = i then g x else 0) +
            ((l.filter (fun s => decide (f s = (i : Int)))).map g).sum := by
      intro i
      by_cases hi : f x = (i : Int)
      · have : (f x).toNat = i := by omega
        simp [List.filter_cons, hi, this]
      · have : ¬ (f x).toNat = i := by omega
        simp [List.filter_cons, hi, this]
    simp only [hstep]
    rw [Finset.sum_add_distrib, ih hl, Finset.sum_ite_eq, if_pos (by
      rw [Finset.mem_range]; omega), List.map_cons, List.sum_cons]

/-- C24: in bucket mode, for a non-empty sample list with earliest timestamp `earliest`
and latest timestamp `latest`, a width `w = bucketMinutes * 60 * 1000 > 0` and
`mn = floor(earliest / w) * w`, the bucket index of every sample lies between 0 and
`floor((latest - mn) / w)`; so, over the emitted buckets, the counts of the table
`buckets` add up to the number of samples, and the emitted values times these counts add
up to the sum of all sample values. -/
theorem bucketing_loses_no_sample (samples : List Sample)
    (bucketMinutes earliest latest w mn : Int)
    (hpos : 0 < bucketMinutes)
    (hmin : ∃ x ∈ samples, x.timestamp = earliest) (hlo : ∀ x ∈ samples, earliest ≤ x.timestamp)
    (hmax : ∃ x ∈ samples, x.timestamp = latest) (hhi : ∀ x ∈ samples, x.timestamp ≤ latest)
    (hw : w = bucketMinutes * 60 * 1000) (hmn : mn = earliest / w * w) :
    (∀ s ∈ samples, 0 ≤ (s.timestamp - mn) / w ∧ (s.timestamp - mn) / w ≤ (latest - mn) / w) ∧
    Finset.sum (Finset.range (aggregateSamples samples .bucket bucketMinutes).length)
        (fun i => bucketCount
          (((samples.map toTV).foldl (addToBucket mn w) (fun _ => none)) (i : Int))) =
      samples.length ∧
    Finset.sum (Finset.range (aggregateSamples samples .bucket bucketMinutes).length)
        (fun i =>
          ((((aggregateSamples samples .bucket bucketMinutes)[i]?).map (fun p => p.value)).getD 0) *
            (bucketCount
              (((samples.map toTV).foldl (addToBucket mn w) (fun _ => none)) (i : Int)) : ℚ)) =
      (samples.map (fun s => s.flowRate)).sum := by
  have hwpos : 0 < w := by rw [hw]; omega
  have hle : earliest ≤ latest := by
    obtain ⟨x, hx, rfl⟩ := hmax
    exact hlo x hx
  obtain ⟨b1, _, b3, _, _⟩ := bucket_bounds earliest latest w mn hwpos hle hmn
  have hidx : ∀ s ∈ samples,
      0 ≤ (s.timestamp - mn) / w ∧ (s.timestamp - mn) / w ≤ (latest - mn) / w := by
    intro s hs
    have h1 := hlo s hs
    have h2 := hhi s hs
    exact ⟨Int.ediv_nonneg (by omega) (le_of_lt hwpos),
      Int.ediv_le_ediv hwpos (by omega)⟩
  have hlen : (aggregateSamples samples .bucket bucketMinutes).length =
      ((latest - mn) / w + 1).toNat := by
    rw [aggregateSamples_bucket_eq samples bucketMinutes earliest latest w mn hpos hmin hlo hmax
      hhi hw hmn, List.length_map, List.length_range]
  have hrange : ∀ s ∈ samples, 0 ≤ (s.timestamp - mn) / w ∧
      (s.timestamp - mn) / w < ((((latest - mn) / w + 1).toNat : Nat) : Int) := by
    intro s hs
    have := hidx s hs
    omega
  refine ⟨hidx, ?_, ?_⟩
  · rw [hlen]
    simp only [bucketCount_foldl mn w hwpos]
    have h := sum_over_indices (fun s => (s.timestamp - mn) / w) (fun _ => (1 : Nat))
      ((latest - mn) / w + 1).toNat samples hrange
    simpa using h
  · rw [hlen]
    have h := sum_over_indices (fun s => (s.timestamp - mn) / w) (fun s => s.flowRate)
      ((latest - mn) / w + 1).toNat samples hrange
    rw [← h]
    apply Finset.sum_congr rfl
    intro i hi
    rw [Finset.mem_range] at hi
    rw [aggregateSamples_bucket_eq samples bucketMinutes earliest latest w mn hpos hmin hlo hmax
      hhi hw hmn, List.getElem?_map, List.getElem?_range hi, bucketCount_foldl mn w hwpos]
    simp only [Option.map_some', Option.getD_some]
    by_cases hnil : samples.filter (fun s => decide ((s.timestamp - mn) / w = (i : Int))) = []
    · simp [hnil]
    · rw [if_neg hnil]
      have hne : ((samples.filter
          (fun s => decide ((s.timestamp - mn) / w = (i : Int)))).length : ℚ) ≠ 0 := by
        rw [Nat.cast_ne_zero]
        exact fun h0 => hnil (List.length_eq_zero.1 h0)
      exact div_mul_cancel₀ _ hne

/-- C24 on samples at 09:00 (100), 09:30 (200) and 12:15 (50) with a 60-minute width:
the counts of the four emitted buckets add up to 3 and the values times the counts to
350. -/
theorem bucketing_loses_no_sample_witness :
    Finset.sum
        (Finset.range (aggregateSamples
          [⟨at2024 9 0, 100⟩, ⟨at2024 9 30, 200⟩, ⟨at2024 12 15, 50⟩] .bucket 60).length)
        (fun i => bucketCount
          ((([⟨at2024 9 0, 100⟩, ⟨at2024 9 30, 200⟩, ⟨at2024 12 15, 50⟩].map toTV).foldl
            (addToBucket (at2024 9 0) 3600000) (fun _ => none)) (i : Int))) = 3 ∧
    Finset.sum
        (Finset.range (aggregateSamples
          [⟨at2024 9 0, 100⟩, ⟨at2024 9 30, 200⟩, ⟨at2024 12 15, 50⟩] .bucket 60).length)
        (fun i =>
          ((((aggregateSamples [⟨at2024 9 0, 100⟩, ⟨at2024 9 30, 200⟩, ⟨at2024 12 15, 50⟩]
              .bucket 60)[i]?).map (fun p => p.value)).getD 0) *
            (bucketCount
              ((([⟨at2024 9 0, 100⟩, ⟨at2024 9 30, 200⟩, ⟨at2024 12 15, 50⟩].map toTV).foldl
                (addToBucket (at2024 9 0) 3600000) (fun _ => none)) (i : Int)) : ℚ)) = 350 := by
  have h := bucketing_loses_no_sample
    [⟨at2024 9 0, 100⟩, ⟨at2024 9 30, 200⟩, ⟨at2024 12 15, 50⟩]
    60 (at2024 9 0) (at2024 12 15) 3600000 (at2024 9 0)
    (by decide) (by decide) (by decide) (by decide) (by decide) (by decide) (by decide)
  exact ⟨h.2.1, h.2.2.trans (by norm_num)⟩

/-! ## `iterateDays` across a change of the offset -/

/-- In a zone of fixed offset `iterateDaysIn` is `iterateDays`. -/
theorem iterateDaysIn_fixedOffset (tz startDate endDate : Int) :
    iterateDaysIn (fixedOffset tz) startDate endDate = iterateDays tz startDate endDate := rfl

/-- C13, evaluated where the code departs from it: in the time zone of Havana, for
the range from 11 March 2023 00:00 to 13 March 2023 23:59:59 local time, the start lies
on day 19427 (11 March) and the end on day 19429 (13 March), yet `iterateDays` returns
two days only: 11 March 00:00 and 12 March 01:00 local time. The midnight of 12 March
is skipped by the start of daylight saving time, the next step gives 13 March 01:00,
which is after the end bound 13 March 00:00, and the end day is not returned. -/
theorem iterateDaysIn_havana_drops_end_day :
    civilFromDays 19427 = (2023, 3, 11) ∧ civilFromDays 19429 = (2023, 3, 13) ∧
    floorDiv (zoneLocalTime havana2023 (atMarch2023 11 5 0)) msPerDay = 19427 ∧
    floorDiv (zoneLocalTime havana2023 (atMarch2023 14 3 59 + 59000)) msPerDay = 19429 ∧
    iterateDaysIn havana2023 (atMarch2023 11 5 0) (atMarch2023 14 3 59 + 59000) =
      [atMarch2023 11 5 0, atMarch2023 12 5 0] ∧
    zoneLocalTime havana2023 (atMarch2023 11 5 0) = 19427 * 86400000 ∧
    zoneLocalTime havana2023 (atMarch2023 12 5 0) = 19428 * 86400000 + 3600000 ∧
    (iterateDaysIn havana2023 (atMarch2023 11 5 0) (atMarch2023 14 3 59 + 59000)).length ≠
      3 := by
  have hstart : setHoursZeroIn havana2023 (atMarch2023 11 5 0) = atMarch2023 11 5 0 := by decide
  have hend : setHoursZeroIn havana2023 (atMarch2023 14 3 59 + 59000) = atMarch2023 13 4 0 := by
    decide
  have hnext1 : setDateNextIn havana2023 (atMarch2023 11 5 0) = atMarch2023 12 5 0 := by decide
  have hnext2 : setDateNextIn havana2023 (atMarch2023 12 5 0) = atMarch2023 13 5 0 := by decide
  have hrun : iterateDaysIn havana2023 (atMarch2023 11 5 0) (atMarch2023 14 3 59 + 59000) =
      [atMarch2023 11 5 0, atMarch2023 12 5 0] := by
    rw [iterateDaysIn]
    simp only [hstart, hend]
    rw [iterateDaysLoopIn_of_le _ _ _ (by decide), hnext1,
      iterateDaysLoopIn_of_le _ _ _ (by decide), hnext2,
      iterateDaysLoopIn_of_lt _ _ _ (by decide)]
  refine ⟨by decide, by decide, by decide, by decide, hrun, by decide, by decide, ?_⟩
  rw [hrun]
  decide

/-! ## An empty replacement removes the samples of its partition -/

theorem eq_snapshotSeries_of_refines (cal : LocalCalendar) (series : List Sample)
    (store : SeriesStore) (h : Refines cal series store) : series = snapshotSeries store := by
  obtain ⟨hs, _, _, hf⟩ := h
  apply eq_of_sorted_of_filter_eq Sample.timestamp _ _ hs (sorted_sortByTimestamp _)
  intro t
  rw [filter_sortByTimestamp, hf t]

/-- The samples of the series are the samples of the snapshots of the store. -/
theorem mem_series_iff_of_refines (cal : LocalCalendar) (series : List Sample)
    (store : SeriesStore) (h : Refines cal series store) (p : Sample) :
    p ∈ series ↔ ∃ e ∈ store, p ∈ e.2 := by
  obtain ⟨_, _, _, hf⟩ := h
  have hiff : p ∈ series ↔ p ∈ (store.map (fun e => e.2)).flatten := by
    constructor
    · intro hp
      have hp2 : p ∈ series.filter (fun q => decide (q.timestamp = p.timestamp)) :=
        List.mem_filter.2 ⟨hp, by simp⟩
      rw [hf p.timestamp] at hp2
      exact (List.mem_filter.1 hp2).1
    · intro hp
      have hp2 : p ∈ (store.map (fun e => e.2)).flatten.filter
          (fun q => decide (q.timestamp = p.timestamp)) :=
        List.mem_filter.2 ⟨hp, by simp⟩
      rw [← hf p.timestamp] at hp2
      exact (List.mem_filter.1 hp2).1
  rw [hiff, List.mem_flatten]
  constructor
  · rintro ⟨l, hl, hpl⟩
    obtain ⟨e, he, rfl⟩ := List.mem_map.1 hl
    exact ⟨e, he, hpl⟩
  · rintro ⟨e, he, hpe⟩
    exact ⟨e.2, List.mem_map.2 ⟨e, he, rfl⟩, hpe⟩

/-- C9, amended: let every batch hold only samples whose timestamp falls on the local
calendar day of the key it is delivered for. On the series reached from the empty series
by such updates, the samples dated on `D` are exactly the samples of the snapshot that
the partition of `D` last reported, and an empty replacement for `D` (a missing
snapshot, or a snapshot without samples) yields the previous series with exactly these
samples removed: the result is the previous series restricted to the samples not dated
on `D`, it holds every sample of the snapshot of every other day and no sample of the
snapshot of `D`, and it is the series of the store in which the snapshot of `D` is empty
and the others are untouched. -/
theorem empty_replacement_removes_partition (cal : LocalCalendar) (us : List DayUpdate)
    (key : YMDParts) (hday : ∀ u ∈ us, batchOnOwnDay cal u = true) :
    clearDay cal key (applyUpdates cal [] us) =
        (applyUpdates cal [] us).filter
          (fun p => decide (dateToYMDParts cal p.timestamp ≠ key)) ∧
    replaceDay cal key [] (applyUpdates cal [] us) =
        clearDay cal key (applyUpdates cal [] us) ∧
    (∀ p ∈ applyUpdates cal [] us,
      dateToYMDParts cal p.timestamp = key ↔
        ∃ e ∈ storeUpdates [] us, e.1 = key ∧ p ∈ e.2) ∧
    (∀ e ∈ storeUpdates [] us, e.1 ≠ key →
      ∀ p ∈ e.2, p ∈ clearDay cal key (applyUpdates cal [] us)) ∧
    (∀ e ∈ storeUpdates [] us, e.1 = key →
      ∀ p ∈ e.2, p ∉ clearDay cal key (applyUpdates cal [] us)) ∧
    clearDay cal key (applyUpdates cal [] us) =
        snapshotSeries (clearPartition key (storeUpdates [] us)) := by
  have h0 : Refines cal [] [] := by
    refine ⟨List.sorted_nil, ?_, List.nodup_nil, fun t => rfl⟩
    intro e he
    cases he
  have href := refines_applyUpdates cal us [] [] h0 hday
  have hown : StoreOnOwnDay cal (storeUpdates [] us) := href.2.1
  have hmem := mem_series_iff_of_refines cal _ _ href
  have hfun : notOnDay cal key = fun p => decide (dateToYMDParts cal p.timestamp ≠ key) := by
    funext p
    rw [notOnDay_eq]
    simp
  have hclear : clearDay cal key (applyUpdates cal [] us) =
      (applyUpdates cal [] us).filter
        (fun p => decide (dateToYMDParts cal p.timestamp ≠ key)) := by
    rw [clearDay, hfun]
  refine ⟨hclear, ?_, ?_, ?_, ?_, ?_⟩
  · rw [replaceDay_eq, List.append_nil, sortByTimestamp_of_sorted]
    · rfl
    · exact List.Sorted.filter _ href.1
  · intro p hp
    constructor
    · intro hdate
      obtain ⟨e, he, hpe⟩ := (hmem p).1 hp
      exact ⟨e, he, (hown e he p hpe).symm.trans hdate, hpe⟩
    · rintro ⟨e, he, hk, hpe⟩
      exact (hown e he p hpe).trans hk
  · intro e he hne p hpe
    rw [hclear, List.mem_filter]
    refine ⟨(hmem p).2 ⟨e, he, hpe⟩, ?_⟩
    rw [hown e he p hpe]
    simpa using hne
  · intro e he hk p hpe hin
    rw [hclear, List.mem_filter] at hin
    have hd := hown e he p hpe
    rw [hk] at hd
    simp [hd] at hin
  · exact eq_snapshotSeries_of_refines cal _ _ (refines_clear cal key _ _ href)

/-- C9, amended, on a concrete sequence: 14 November and 15 November each report a
batch of their own day, then 15 November reports an empty replacement; the series keeps
the samples of 14 November, in order, and loses the sample of 15 November. -/
theorem empty_replacement_removes_partition_witness :
    clearDay utcCalendar nov15
        (applyUpdates utcCalendar []
          [.replace nov14 [⟨atNov14 9 30, 40⟩, ⟨atNov14 8 0, 25⟩],
            .replace nov15 [⟨atNov15 6 0, 12⟩]]) =
      [⟨atNov14 8 0, 25⟩, ⟨atNov14 9 30, 40⟩] :=
  (empty_replacement_removes_partition utcCalendar
    [.replace nov14 [⟨atNov14 9 30, 40⟩, ⟨atNov14 8 0, 25⟩], .replace nov15 [⟨atNov15 6 0, 12⟩]]
    nov15 (by decide)).1.trans (by decide)

/-- C9 as stated fails. The partition of 15 November reports a sample whose timestamp
is 14 November 22:13 in the local time zone and then an empty replacement: the sample it
reported stays in the series. The partition of 14 November reports a sample whose
timestamp is 15 November 02:00 and then the partition of 15 November reports an empty
replacement: the sample of the other partition is removed. -/
theorem empty_replacement_misses_partition :
    applyUpdates utcCalendar [] [.replace nov15 [⟨atNov14 22 13, 40⟩]] =
      [⟨atNov14 22 13, 40⟩] ∧
    clearDay utcCalendar nov15
        (applyUpdates utcCalendar [] [.replace nov15 [⟨atNov14 22 13, 40⟩]]) =
      [⟨atNov14 22 13, 40⟩] ∧
    applyUpdates utcCalendar [] [.replace nov14 [⟨atNov15 2 0, 40⟩]] = [⟨atNov15 2 0, 40⟩] ∧
    clearDay utcCalendar nov15
        (applyUpdates utcCalendar [] [.replace nov14 [⟨atNov15 2 0, 40⟩]]) = [] := by
  decide

end PatientDetails
